import Mathlib

/-!
# Verification of the qntjs-lib sliding-window order-statistics engine

This file is a shallow embedding, in Lean 4, of the quantile subsystem of
qntjs-lib (`src/stats/quantile.ts`): the quickselect helpers (`_swap`,
`_partition`, `_quickselect`), the batch quantile functions
(`_quantileFromBuf`, `quantile`, `percentiles`, `median`) and the rolling
two-heap engine (`siftUp`, `siftDown`, `popHeap`, `prune`,
`slidingQuantileHeap`, `rollmedian`, `rollquantile`).

Modelling conventions:
* IEEE-754 doubles are modelled as `Option ℚ`: `some x` is a finite number,
  `none` stands for NaN (and for JavaScript's `undefined` where it can flow
  out of an out-of-bounds typed-array read; see the comment on `jsSEq` for
  why this conflation is observationally equivalent in this code).
* `Float64Array` buffers of numbers are `List ℚ`; `Int32Array` heap storage
  is `List ℤ` of fixed physical length.  JavaScript silently ignores
  out-of-bounds stores into typed arrays, which `List.set` also does; an
  out-of-bounds read yields `undefined`, which we model with `Option`.
* JS `while` loops become fuel-indexed recursion; in every case the fuel is
  chosen so that the loop guard, not the fuel, terminates the recursion
  (each loop body strictly decreases an explicit natural measure that the
  fuel dominates), so the embedding computes exactly what the source does.
-/

namespace QntJs

/-- A JavaScript number slot: `some x` is a finite double (modelled exactly
as a rational), `none` is NaN/undefined. -/
abbrev JsVal := Option ℚ

/-- JS `<` on numbers: false whenever either side is NaN/undefined. -/
def jsLt : JsVal → JsVal → Bool
  | some x, some y => decide (x < y)
  | _, _ => false

/-- JS `>` on numbers: false whenever either side is NaN/undefined. -/
def jsGt : JsVal → JsVal → Bool
  | some x, some y => decide (x > y)
  | _, _ => false

/-- JS `<=` on numbers: false whenever either side is NaN/undefined. -/
def jsLe : JsVal → JsVal → Bool
  | some x, some y => decide (x ≤ y)
  | _, _ => false

/-- JS `===` on numbers.  `NaN === NaN` is false.  In JavaScript
`undefined === undefined` is true while this model returns false (NaN and
undefined are conflated); in the embedded code `===` on values appears only
in the guards `xi === xj && hi < hj` of `siftUp`/`siftDown`, where `xi` and
`xj` can simultaneously be undefined only when the heap indices `hi`, `hj`
are both undefined as well, making `hi < hj` false — so the whole guard
evaluates to false under either reading, and the conflation is
observationally equivalent. -/
def jsSEq : JsVal → JsVal → Bool
  | some x, some y => decide (x = y)
  | _, _ => false

/-- JS `(x + y) / 2` on numbers, propagating NaN/undefined. -/
def jsAvg : JsVal → JsVal → JsVal
  | some x, some y => some ((x + y) / 2)
  | _, _ => none

/-- JS `Number.isNaN`-style self-equality test `v === v`. -/
def jsIsNum (v : JsVal) : Bool := v.isSome

/-- An `Int32Array` slot read: in-bounds reads give the stored integer,
out-of-bounds reads give `undefined` (`none`). -/
def i32get (heap : List ℤ) (i : ℕ) : Option ℤ := heap.get? i

/-- An `Int32Array` store: out-of-bounds stores are silently ignored
(`List.set` is the identity out of bounds, matching JS typed arrays);
storing `undefined` writes `ToInt32(NaN) = 0`.  All in-range stored values
in this code are array indices `< 2^31`, so the 32-bit wrap is omitted. -/
def i32set (heap : List ℤ) (i : ℕ) (v : Option ℤ) : List ℤ :=
  heap.set i (v.getD 0)

/-- JS `<` on two `Int32Array` reads (possibly undefined). -/
def jsIdxLt : Option ℤ → Option ℤ → Bool
  | some x, some y => decide (x < y)
  | _, _ => false

/-- Dereference a (possibly undefined) heap entry through the value array:
`arr[heap[i]]`.  An undefined or out-of-bounds index yields undefined. -/
def valAt (a : List JsVal) : Option ℤ → JsVal
  | none => none
  | some z => if z < 0 then none else (a.getD z.toNat none)

/-- JS `(total & 1) === 1` (oddness after ToInt32; for any integer this is
ordinary oddness, and Lean's `Int.emod` by 2 is `1` exactly on odds). -/
def jsOdd (t : ℤ) : Bool := decide (t % 2 = 1)

/-! ## Heap primitives (`siftUp`, `siftDown`, `popHeap`, `prune`)

These operate on a heap of indices into the original value array `a`; the
comparison dereferences through `a` and breaks exact value ties by the
smaller original index. -/

/-- The `while (i > 0)` loop of `siftUp`, fuel-indexed so that the
recursion is structural and kernel-reducible.  The loop index `i` strictly
decreases (`(i-1) >> 1 < i` for `i > 0`), so any `fuel ≥ idx` makes the
loop guard, not the fuel, end the recursion. -/
def siftUpGo (fuel : ℕ) (heap : List ℤ) (idx : ℕ) (isMin : Bool) (a : List JsVal) :
    List ℤ :=
  match fuel, idx with
  | 0, _ => heap
  | _, 0 => heap
  | fuel + 1, i + 1 =>
    let j := i / 2
    let hi := i32get heap (i + 1)
    let hj := i32get heap j
    let xi := valAt a hi
    let xj := valAt a hj
    if (isMin && jsLt xi xj) || (!isMin && jsGt xi xj) || (jsSEq xi xj && jsIdxLt hi hj) then
      siftUpGo fuel (i32set (i32set heap (i + 1) hj) j hi) j isMin a
    else heap

/-- Sift an index up within a typed heap (min or max depending on `isMin`);
translation of `siftUp` in `src/stats/quantile.ts`. -/
def siftUp (heap : List ℤ) (idx : ℕ) (isMin : Bool) (a : List JsVal) : List ℤ :=
  siftUpGo idx heap idx isMin a

/-- One descent of `siftDown`, fuel-indexed.  The loop index strictly
increases and stays below `len`, so any `fuel ≥ len` makes the recursion
terminate by the loop guard, exactly as the source's `while (true)` loop. -/
def siftDownGo (fuel : ℕ) (heap : List ℤ) (len i : ℕ) (isMin : Bool) (a : List JsVal) :
    List ℤ :=
  match fuel with
  | 0 => heap
  | fuel + 1 =>
    let l := i * 2 + 1
    let r := l + 1
    let best := i
    let best :=
      if l < len then
        let il := i32get heap l
        let ibest := i32get heap best
        let al := valAt a il
        let abest := valAt a ibest
        let leftBetter :=
          if isMin then jsLt al abest || (jsSEq al abest && jsIdxLt il ibest)
          else jsGt al abest || (jsSEq al abest && jsIdxLt il ibest)
        if leftBetter then l else best
      else best
    let best :=
      if r < len then
        let ir := i32get heap r
        let ibest2 := i32get heap best
        let ar := valAt a ir
        let abest2 := valAt a ibest2
        let rightBetter :=
          if isMin then jsLt ar abest2 || (jsSEq ar abest2 && jsIdxLt ir ibest2)
          else jsGt ar abest2 || (jsSEq ar abest2 && jsIdxLt ir ibest2)
        if rightBetter then r else best
      else best
    if best ≠ i then
      let t := i32get heap i
      siftDownGo fuel (i32set (i32set heap i (i32get heap best)) best t) len best isMin a
    else heap

/-- Translation of `siftDown` in `src/stats/quantile.ts`.  The recursion
index strictly increases at each swap and is bounded by `len`, so fuel
`len + 1` is never exhausted before the loop guard fires. -/
def siftDown (heap : List ℤ) (len i : ℕ) (isMin : Bool) (a : List JsVal) : List ℤ :=
  siftDownGo (len + 1) heap len i isMin a

/-- Translation of `popHeap`: pop the heap top, returning
`(top, newLen, heap, owner)`.  On an empty heap returns
`top = undefined` and leaves everything unchanged.  `owner[top] = 0` is a
no-op when `top` is undefined or negative (a non-index property store). -/
def popHeap (heap : List ℤ) (len : ℕ) (isMin : Bool) (a : List JsVal)
    (owner : List ℕ) : Option ℤ × ℕ × List ℤ × List ℕ :=
  match len with
  | 0 => (none, 0, heap, owner)
  | len + 1 =>
    let top := i32get heap 0
    let last := i32get heap len
    let heap := i32set heap 0 last
    let heap := siftDown heap len 0 isMin a
    let owner := match top with
      | some z => if z < 0 then owner else owner.set z.toNat 0
      | none => owner
    (top, len, heap, owner)

/-- Translation of `prune`: pop logically deleted entries off the heap top.
Returns `(len, heap, del, owner)`.  Structural recursion on `len` matches
the source loop, whose each iteration pops exactly one element. -/
def prune (heap : List ℤ) (len : ℕ) (isMin : Bool) (del owner : List ℕ)
    (a : List JsVal) : ℕ × List ℤ × List ℕ × List ℕ :=
  match len with
  | 0 => (0, heap, del, owner)
  | len + 1 =>
    match i32get heap 0 with
    | none => (len + 1, heap, del, owner)
    | some z =>
      if z < 0 then (len + 1, heap, del, owner)
      else if del.getD z.toNat 0 ≠ 0 then
        -- `popHeap` at positive length `len+1` returns length `len`
        -- (definitionally), so the source's `len = popped.len` is the
        -- structurally smaller `len` here.
        let p := popHeap heap (len + 1) isMin a owner
        prune p.2.2.1 len isMin (del.set z.toNat 0) p.2.2.2 a
      else (len + 1, heap, del, owner)

/-! ## The sliding two-heap engine (`slidingQuantileHeap`) -/

/-- The loop-carried state of `slidingQuantileHeap`: physical heap storage
(`Int32Array(period)`), logical physical lengths, the lazy-deletion and
ownership side arrays (`Uint8Array(n)`), and the logical element counts.
`emptyPops` is ghost instrumentation only: it counts invocations of
`popHeap` on a heap of physical length `0` from the two rebalance move
loops and influences no computed value. -/
structure SqhState where
  lowerHeap : List ℤ
  upperHeap : List ℤ
  lowerLen : ℕ
  upperLen : ℕ
  del : List ℕ
  owner : List ℕ
  sizeLower : ℤ
  sizeUpper : ℤ
  emptyPops : ℕ
  deriving Repr, DecidableEq

/-- Initial state: zero-initialized typed arrays sized as in the source. -/
def sqhInit (n period : ℕ) : SqhState :=
  { lowerHeap := List.replicate period 0
    upperHeap := List.replicate period 0
    lowerLen := 0
    upperLen := 0
    del := List.replicate n 0
    owner := List.replicate n 0
    sizeLower := 0
    sizeUpper := 0
    emptyPops := 0 }

/-- Apply `prune` to the lower heap, threading `del`/`owner`. -/
def pruneLower (a : List JsVal) (s : SqhState) : SqhState :=
  let p := prune s.lowerHeap s.lowerLen false s.del s.owner a
  { s with lowerLen := p.1, lowerHeap := p.2.1, del := p.2.2.1, owner := p.2.2.2 }

/-- Apply `prune` to the upper heap, threading `del`/`owner`. -/
def pruneUpper (a : List JsVal) (s : SqhState) : SqhState :=
  let p := prune s.upperHeap s.upperLen true s.del s.owner a
  { s with upperLen := p.1, upperHeap := p.2.1, del := p.2.2.1, owner := p.2.2.2 }

/-- Admit step: a non-NaN sample goes to the lower heap if the lower heap
is empty or the sample is `<=` its top value, else to the upper heap. -/
def sqhAdmit (a : List JsVal) (i : ℕ) (s : SqhState) : SqhState :=
  let v := a.getD i none
  if jsIsNum v then
    let lTopIdx : Option ℤ := if s.lowerLen = 0 then none else i32get s.lowerHeap 0
    if lTopIdx.isNone || jsLe v (valAt a lTopIdx) then
      let h := i32set s.lowerHeap s.lowerLen (some (i : ℤ))
      let h := siftUp h s.lowerLen false a
      { s with lowerHeap := h, lowerLen := s.lowerLen + 1,
               sizeLower := s.sizeLower + 1, owner := s.owner.set i 1 }
    else
      let h := i32set s.upperHeap s.upperLen (some (i : ℤ))
      let h := siftUp h s.upperLen true a
      { s with upperHeap := h, upperLen := s.upperLen + 1,
               sizeUpper := s.sizeUpper + 1, owner := s.owner.set i 2 }
  else s

/-- Evict step: when `i >= period`, the index leaving the window is marked
deleted in its owning heap and the logical count decremented; an index
whose `owner` entry is `0` (never inserted, or cleared) is skipped. -/
def sqhEvict (period i : ℕ) (s : SqhState) : SqhState :=
  if period ≤ i then
    let outIdx := i - period
    match s.owner.getD outIdx 0 with
    | 1 => { s with sizeLower := s.sizeLower - 1, del := s.del.set outIdx 1,
                    owner := s.owner.set outIdx 0 }
    | 2 => { s with sizeUpper := s.sizeUpper - 1, del := s.del.set outIdx 1,
                    owner := s.owner.set outIdx 0 }
    | _ => s
  else s

/-- One move from the lower heap top to the upper heap (loop body of
`while (sizeLower > targetLower)`), fuel-indexed.  Each body iteration
decrements `sizeLower` by exactly one, so fuel
`(sizeLower - targetLower).toNat` makes the guard, not the fuel, end the
loop. -/
def sqhMoveL2U (a : List JsVal) (target : ℤ) : ℕ → SqhState → SqhState
  | 0, s => s
  | fuel + 1, s =>
    if target < s.sizeLower then
      let s := pruneLower a s
      let ghost := if s.lowerLen = 0 then 1 else 0
      let p := popHeap s.lowerHeap s.lowerLen false a s.owner
      let movedIdx := p.1
      let s := { s with lowerLen := p.2.1, lowerHeap := p.2.2.1, owner := p.2.2.2,
                        sizeLower := s.sizeLower - 1, emptyPops := s.emptyPops + ghost }
      let h := i32set s.upperHeap s.upperLen movedIdx
      let h := siftUp h s.upperLen true a
      let s := { s with upperHeap := h, upperLen := s.upperLen + 1,
                        sizeUpper := s.sizeUpper + 1 }
      sqhMoveL2U a target fuel s
    else s

/-- One move from the upper heap top to the lower heap (loop body of
`while (sizeLower < targetLower)`), fuel-indexed symmetrically. -/
def sqhMoveU2L (a : List JsVal) (target : ℤ) : ℕ → SqhState → SqhState
  | 0, s => s
  | fuel + 1, s =>
    if s.sizeLower < target then
      let s := pruneUpper a s
      let ghost := if s.upperLen = 0 then 1 else 0
      let p := popHeap s.upperHeap s.upperLen true a s.owner
      let movedIdx := p.1
      let s := { s with upperLen := p.2.1, upperHeap := p.2.2.1, owner := p.2.2.2,
                        sizeUpper := s.sizeUpper - 1, emptyPops := s.emptyPops + ghost }
      let h := i32set s.lowerHeap s.lowerLen movedIdx
      let h := siftUp h s.lowerLen false a
      let s := { s with lowerHeap := h, lowerLen := s.lowerLen + 1,
                        sizeLower := s.sizeLower + 1 }
      sqhMoveU2L a target fuel s
    else s

/-- Rebalance step: compute `targetLower = floor((cnt-1)*q) + 1`, prune
both tops, run the two move loops, prune both tops again. -/
def sqhRebalance (a : List JsVal) (q : ℚ) (s : SqhState) : SqhState :=
  let cnt := s.sizeLower + s.sizeUpper
  if cnt = 0 then s
  else
    let lo := ⌊((cnt : ℚ) - 1) * q⌋
    let targetLower := lo + 1
    let s := pruneLower a s
    let s := pruneUpper a s
    let s := sqhMoveL2U a targetLower (s.sizeLower - targetLower).toNat s
    let s := sqhMoveU2L a targetLower (targetLower - s.sizeLower).toNat s
    let s := pruneLower a s
    pruneUpper a s

/-- Emit step (`i >= period - 1`): prune both tops, then produce NaN on an
empty window, the lower top on an odd count, and the average of the two
heap root values on an even count. -/
def sqhEmit (a : List JsVal) (s : SqhState) : SqhState × JsVal :=
  let s := pruneLower a s
  let s := pruneUpper a s
  let total := s.sizeLower + s.sizeUpper
  if total = 0 then (s, none)
  else if jsOdd total then (s, valAt a (i32get s.lowerHeap 0))
  else (s, jsAvg (valAt a (i32get s.lowerHeap 0)) (valAt a (i32get s.upperHeap 0)))

/-- One iteration of the main loop of `slidingQuantileHeap` at index `i`:
admit, evict, rebalance, and (once `i >= period - 1`) emit `out[i]`. -/
def sqhStep (a : List JsVal) (period : ℕ) (q : ℚ) (i : ℕ) (s : SqhState) :
    SqhState × Option JsVal :=
  let s := sqhAdmit a i s
  let s := sqhEvict period i s
  let s := sqhRebalance a q s
  if period - 1 ≤ i then
    let e := sqhEmit a s
    (e.1, some e.2)
  else (s, none)

/-- The engine state after the first `i` loop iterations. -/
def sqhStateAt (a : List JsVal) (period : ℕ) (q : ℚ) : ℕ → SqhState
  | 0 => sqhInit a.length period
  | i + 1 => (sqhStep a period q i (sqhStateAt a period q i)).1

/-- Collect the emitted outputs of `rem` loop iterations starting at
index `i` in state `s`. -/
def sqhGo (a : List JsVal) (period : ℕ) (q : ℚ) : ℕ → ℕ → SqhState → List JsVal
  | 0, _, _ => []
  | rem + 1, i, s =>
    match sqhStep a period q i s with
    | (s', some o) => o :: sqhGo a period q rem (i + 1) s'
    | (s', none) => sqhGo a period q rem (i + 1) s'

/-- Translation of `slidingQuantileHeap` in `src/stats/quantile.ts`:
validates `period`, returns an all-NaN array when `n < period`, validates
`q`, then runs the two-heap loop.  Thrown `Error`s are modelled with
`Except.error`. -/
def slidingQuantileHeap (a : List JsVal) (period : ℕ) (q : ℚ) :
    Except String (List JsVal) :=
  let n := a.length
  if period = 0 then .error "period must be positive"
  else if n < period then .ok (List.replicate n (none : JsVal))
  else if q < 0 ∨ 1 < q then .error "q must be in [0,1]"
  else
    .ok (List.replicate (period - 1) (none : JsVal) ++
      sqhGo a period q n 0 (sqhInit n period))

/-- Translation of `rollmedian`: `slidingQuantileHeap(source, period, 0.5)`. -/
def rollmedian (source : List JsVal) (period : ℕ) : Except String (List JsVal) :=
  slidingQuantileHeap source period (1 / 2)

/-- Translation of `rollquantile`: `slidingQuantileHeap(source, period, q)`. -/
def rollquantile (source : List JsVal) (period : ℕ) (q : ℚ) :
    Except String (List JsVal) :=
  slidingQuantileHeap source period q

/-- Number of non-NaN samples in the window `[i-period+1, i]` of `a`. -/
def windowValidCount (a : List JsVal) (period i : ℕ) : ℕ :=
  ((a.take (i + 1)).drop (i + 1 - period)).countP (·.isSome)

/-! ## Quickselect and the batch quantile functions

The selection buffer is a `Float64Array` that by construction contains no
NaN (only values passing `v === v` are compacted into it), so it is
modelled as a `List ℚ`; reads are `getD _ 0` (all accesses are in bounds
for the calls made here, see `_quickselect`). -/

/-- Modelled from the spec: `Math.log`, `Math.exp` and `Math.sqrt` are
ECMAScript built-ins external to this repository, and ECMAScript requires
only implementation-approximated results for them ("an
implementation-approximated value of the natural logarithm", etc.).  The
embedding of `_quickselect` is therefore parameterized by the three
functions. -/
structure JsMath where
  log : ℚ → ℚ
  exp : ℚ → ℚ
  sqrt : ℚ → ℚ

/-- Rational approximations of the IEEE-754 double results of
`Math.log`/`Math.exp`/`Math.sqrt` at the single argument each receives in
the concrete evaluations of this development (which all arise from a
range of size `n = 601`): `log 601 ≈ 6.398595`, `exp (2·log 601/3) ≈
71.2167`, `sqrt (log 601 · 35 · 566 / 601) ≈ 14.5227`.  The behaviour
exhibited at those inputs is insensitive to the approximation: any
sampling size `s` with `1 ≤ s ≤ 599` and offset `sd ≥ -564` produces a
narrowed window that excludes position `0`, which is all the
counterexamples below rely on. -/
def jsMathV8 : JsMath where
  log := fun _ => 6398595 / 1000000
  exp := fun _ => 712167 / 10000
  sqrt := fun _ => 145227 / 10000

/-- Translation of `_swap`: exchange two buffer slots in place. -/
def _swap (arr : List ℚ) (i j : ℕ) : List ℚ :=
  let t := arr.getD i 0
  let arr := arr.set i (arr.getD j 0)
  arr.set j t

/-- The scan loop of `_partition`: walk `i` from `left` to `right - 1`
moving elements `< pivotValue` to the front.  Fuel-indexed structurally;
the caller passes fuel `right - left`, which is exactly the number of loop
iterations, so the loop guard and the fuel agree. -/
def _partitionGo (fuel : ℕ) (arr : List ℚ) (pivotValue : ℚ) (store i right : ℕ) :
    ℕ × List ℚ :=
  match fuel with
  | 0 => (store, arr)
  | fuel + 1 =>
    if i < right then
      if arr.getD i 0 < pivotValue then
        _partitionGo fuel (_swap arr store i) pivotValue (store + 1) (i + 1) right
      else _partitionGo fuel arr pivotValue store (i + 1) right
    else (store, arr)

/-- Translation of `_partition` (Lomuto scheme): move the pivot to
`right`, scan, swap the pivot into its final slot, return its position. -/
def _partition (arr : List ℚ) (left right pivotIndex : ℕ) : ℕ × List ℚ :=
  let pivotValue := arr.getD pivotIndex 0
  let arr := _swap arr pivotIndex right
  let pr := _partitionGo (right - left) arr pivotValue left left right
  (pr.1, _swap pr.2 pr.1 right)

/-- The median-of-three pivot choice of `_quickselect` (the inline IIFE in
the source): the median among `arr[left]`, `arr[mid]`, `arr[right]`. -/
def pivotMedian3 (arr : List ℚ) (left right : ℕ) : ℕ :=
  let mid := left + (right - left) / 2
  let al := arr.getD left 0
  let am := arr.getD mid 0
  let ar := arr.getD right 0
  if (al ≤ am ∧ am ≤ ar) ∨ (ar ≤ am ∧ am ≤ al) then mid
  else if (am ≤ al ∧ al ≤ ar) ∨ (ar ≤ al ∧ al ≤ am) then left
  else right

/-- Translation of `_quickselect` (iterative with a Floyd–Rivest-style
narrowing step for ranges larger than 600).  The `while (right > left)`
loop and the narrowing recursion are fuel-indexed; every call in this
development passes fuel dominating the recursion depth (each
partition-based recursion strictly shrinks `right - left`), so the fuel
never ends the computation.  `m = k - left + 1` uses ℕ subtraction: in
every reachable call `left ≤ k` (the narrowed bounds bracket `k` for the
reference approximations, and the partition branches preserve
`left ≤ k ≤ right`). -/
def _quickselect (jm : JsMath) :
    (fuel : ℕ) → (arr : List ℚ) → (k left right : ℕ) → ℚ × List ℚ
  | 0, arr, k, _, _ => (arr.getD k 0, arr)
  | fuel + 1, arr, k, left, right =>
    if left < right then
      let n := right - left + 1
      let step :=
        if 600 < n then
          let m := k - left + 1
          let logn := jm.log (n : ℚ)
          let s := ⌊(1 / 2 : ℚ) * jm.exp (2 * logn / 3)⌋
          let sd := ⌊(1 / 2 : ℚ) * jm.sqrt ((logn * (s : ℚ) * ((n : ℚ) - (s : ℚ))) / (n : ℚ)) *
                      (if (0 : ℚ) ≤ (m : ℚ) - (n : ℚ) / 2 then 1 else -1)⌋
          let newLeft := (max (left : ℤ) ⌊(k : ℚ) - ((m : ℚ) * (s : ℚ)) / (n : ℚ) + (sd : ℚ)⌋).toNat
          let newRight := (min (right : ℤ) ⌊(k : ℚ) + (((n : ℚ) - (m : ℚ)) * (s : ℚ)) / (n : ℚ) + (sd : ℚ)⌋).toNat
          let sub := _quickselect jm fuel arr k newLeft newRight
          (newLeft, newRight, sub.2)
        else (left, right, arr)
      let left := step.1
      let right := step.2.1
      let arr := step.2.2
      let pivotIndex := pivotMedian3 arr left right
      let pr := _partition arr left right pivotIndex
      let p := pr.1
      let arr := pr.2
      if k = p then (arr.getD k 0, arr)
      else if k < p then _quickselect jm fuel arr k left (p - 1)
      else _quickselect jm fuel arr k (p + 1) right
    else (arr.getD left 0, arr)

/-- The `hiVal` scan of `_quantileFromBuf`: running minimum of
`buf[i..p-1]` starting from `Infinity`, modelled as `Option ℚ` with `none`
for the initial `Infinity` (every finite value compares `<` it). -/
def hiScan (buf : List ℚ) : (fuel : ℕ) → (i p : ℕ) → Option ℚ → Option ℚ
  | 0, _, _, acc => acc
  | fuel + 1, i, p, acc =>
    if i < p then
      let v := buf.getD i 0
      let acc := match acc with
        | none => some v
        | some h => if v < h then some v else acc
      hiScan buf fuel (i + 1) p acc
    else acc

/-- Translation of `_quantileFromBuf`: linear-interpolation quantile of a
compacted buffer of length `p`, via quickselect; returns the value and the
permuted buffer (the caller `percentiles` reuses it).  When `lo ≠ hi` the
scan range `(lo, p-1]` is nonempty (`lo ≤ p - 2` because
`idx = (p-1)·q < p-1` forces `lo < p-1` whenever `lo ≠ hi`), so the `none`
fallback (JS: the initial `Infinity` surviving an empty scan) is
unreachable from `quantile`/`percentiles`. -/
def _quantileFromBuf (jm : JsMath) (buf : List ℚ) (p : ℕ) (q : ℚ) :
    JsVal × List ℚ :=
  let idx := ((p : ℚ) - 1) * q
  let lo := ⌊idx⌋
  let hi := ⌈idx⌉
  if lo = hi then
    let r := _quickselect jm (2 * p + 2) buf lo.toNat 0 (p - 1)
    (some r.1, r.2)
  else
    let r := _quickselect jm (2 * p + 2) buf lo.toNat 0 (p - 1)
    let loVal := r.1
    let buf := r.2
    match hiScan buf p (lo.toNat + 1) p none with
    | some hiVal =>
      let w := idx - (lo : ℚ)
      (some (loVal * (1 - w) + hiVal * w), buf)
    | none => (none, buf)

/-- Translation of the compaction loop shared by `quantile` and
`percentiles`: copy every non-NaN entry, in order, into a fresh buffer. -/
def compactValid (source : List JsVal) : List ℚ := source.filterMap id

/-- Translation of `quantile`: validate `q`, compact the non-NaN values
into a fresh buffer, return NaN when empty, else select/interpolate. -/
def quantile (jm : JsMath) (source : List JsVal) (q : ℚ) :
    Except String JsVal :=
  if q < 0 ∨ 1 < q then .error "q must be in [0,1]"
  else if source.length = 0 then .ok none
  else
    let buf := compactValid source
    let p := buf.length
    if p = 0 then .ok none
    else .ok (_quantileFromBuf jm buf p q).1

/-- Translation of `median`: `quantile(source, 0.5)`. -/
def median (jm : JsMath) (source : List JsVal) : Except String JsVal :=
  quantile jm source (1 / 2)

/-- The `qs.length <= 10` loop of `percentiles`: each quantile is computed
by selection on the shared buffer, which is permuted in place and reused
for subsequent queries; out-of-range entries produce NaN. -/
def percGo (jm : JsMath) (p : ℕ) : List ℚ → List ℚ → List JsVal
  | [], _ => []
  | q :: qs, buf =>
    if q < 0 ∨ 1 < q then none :: percGo jm p qs buf
    else
      let r := _quantileFromBuf jm buf p q
      r.1 :: percGo jm p qs r.2

/-- Model of `Float64Array.prototype.sort()` (ascending numeric order; the
buffer contains no NaN). -/
def sortBuf (buf : List ℚ) : List ℚ := buf.insertionSort (· ≤ ·)

/-- The `qs.length > 10` loop of `percentiles`: answer every quantile by
index interpolation into the sorted compacted buffer `arr` of length `m`;
out-of-range entries produce NaN. -/
def percSorted (arr : List ℚ) (m : ℕ) (qs : List ℚ) : List JsVal :=
  qs.map (fun q =>
    if q < 0 ∨ 1 < q then none
    else
      let idx := ((m : ℚ) - 1) * q
      let lo := ⌊idx⌋
      let hi := ⌈idx⌉
      if lo = hi then some (arr.getD lo.toNat 0)
      else
        let w := idx - (lo : ℚ)
        some (arr.getD lo.toNat 0 * (1 - w) + arr.getD hi.toNat 0 * w))

/-- Translation of `percentiles`: empty and single-query fast paths, then
either repeated selection on the shared compacted buffer (`qs.length <=
10`) or one sort plus index interpolation; out-of-range `q` entries yield
NaN in place. -/
def percentiles (jm : JsMath) (source : List JsVal) (qs : List ℚ) :
    Except String (List JsVal) :=
  match qs with
  | [] => .ok []
  | [q0] =>
    match quantile jm source q0 with
    | .error e => .error e
    | .ok v => .ok [v]
  | _ =>
    let buf := compactValid source
    let p := buf.length
    if p = 0 then .ok (qs.map (fun _ => (none : JsVal)))
    else if qs.length ≤ 10 then .ok (percGo jm p qs buf)
    else
      let arr := sortBuf buf
      let m := p
      .ok (percSorted arr m qs)

/-! ## Store-passing wrappers (buffer identity)

The selection functions permute a buffer in place.  To express which array
object is mutated — the claim is that it is always a fresh copy, never the
caller's `source` — we give store-passing translations in which every
addressable `Float64Array` of samples is a slot of a `Store` and `new
Float64Array(...)` allocates a fresh slot at the end of the store.  The
pure functions above compute the contents; the wrappers record which slot
each mutation targets, exactly following the source. -/

/-- The heap of addressable sample arrays. -/
abbrev Store := List (List JsVal)

/-- Store-passing `quantile`: `source` is the slot `srcId`; the compacted
buffer is a fresh allocation (`new Float64Array(nTotal)`), and the
in-place permutation performed by `_quickselect` writes that fresh slot. -/
def quantileSt (jm : JsMath) (store : Store) (srcId : ℕ) (q : ℚ) :
    Except String (JsVal × Store) :=
  let source := store.getD srcId []
  if q < 0 ∨ 1 < q then .error "q must be in [0,1]"
  else if source.length = 0 then .ok (none, store)
  else
    let buf := compactValid source
    let p := buf.length
    let bufId := store.length
    let store := store ++ [buf.map some]
    if p = 0 then .ok (none, store)
    else
      let r := _quantileFromBuf jm buf p q
      .ok (r.1, store.set bufId (r.2.map some))

/-- Store-passing `median` = store-passing `quantile` at `0.5`. -/
def medianSt (jm : JsMath) (store : Store) (srcId : ℕ) :
    Except String (JsVal × Store) :=
  quantileSt jm store srcId (1 / 2)

/-- The final contents of the shared selection buffer after the
`qs.length <= 10` loop of `percentiles` (companion of `percGo`). -/
def percBuf (jm : JsMath) (p : ℕ) : List ℚ → List ℚ → List ℚ
  | [], buf => buf
  | q :: qs, buf =>
    if q < 0 ∨ 1 < q then percBuf jm p qs buf
    else percBuf jm p qs (_quantileFromBuf jm buf p q).2

/-- Store-passing `percentiles`: one fresh buffer allocation; the repeated
selections of the `qs.length <= 10` path and the in-place
`buf.subarray(0,p).sort()` of the long path both mutate that fresh slot
(`subarray` aliases the same object). -/
def percentilesSt (jm : JsMath) (store : Store) (srcId : ℕ) (qs : List ℚ) :
    Except String (List JsVal × Store) :=
  let source := store.getD srcId []
  match qs with
  | [] => .ok ([], store)
  | [q0] =>
    match quantileSt jm store srcId q0 with
    | .error e => .error e
    | .ok r => .ok ([r.1], r.2)
  | _ =>
    let buf := compactValid source
    let p := buf.length
    let bufId := store.length
    let store := store ++ [buf.map some]
    if p = 0 then .ok (qs.map (fun _ => (none : JsVal)), store)
    else if qs.length ≤ 10 then
      .ok (percGo jm p qs buf, store.set bufId ((percBuf jm p qs buf).map some))
    else
      .ok (percSorted (sortBuf buf) p qs, store.set bufId ((sortBuf buf).map some))

/-- Store-passing `slidingQuantileHeap`: the engine only reads the source
slot; `out` (and the heap/side arrays) are fresh allocations; the returned
store appends the output array as a new slot. -/
def slidingQuantileHeapSt (store : Store) (srcId : ℕ) (period : ℕ) (q : ℚ) :
    Except String (List JsVal × Store) :=
  let source := store.getD srcId []
  match slidingQuantileHeap source period q with
  | .error e => .error e
  | .ok out => .ok (out, store ++ [out])

/-- Store-passing `rollmedian`. -/
def rollmedianSt (store : Store) (srcId : ℕ) (period : ℕ) :
    Except String (List JsVal × Store) :=
  slidingQuantileHeapSt store srcId period (1 / 2)

/-- Store-passing `rollquantile`. -/
def rollquantileSt (store : Store) (srcId : ℕ) (period : ℕ) (q : ℚ) :
    Except String (List JsVal × Store) :=
  slidingQuantileHeapSt store srcId period q

/-! ## Concrete inputs used in the evaluations -/

/-- The adversarial selection buffer for the Floyd–Rivest branch:
`arr[0] = 1000` (the unique maximum) and `arr[i] = i` for `1 ≤ i ≤ 600`;
601 elements, so the top-level range (`left = 0`, `right = 600`) has
`n = 601 > 600`. -/
def arrC3 : List ℚ := 1000 :: (List.range 600).map (fun i => (i : ℚ) + 1)

/-- `arrC3` as a NaN-free sample sequence. -/
def srcC7 : List JsVal := arrC3.map some

/-- Scenario A of the spec: `source = [1,3,2,5,4]` (NaN-free). -/
def srcA : List JsVal := [some 1, some 3, some 2, some 5, some 4]

/-- A source agreeing with `srcA` on the window `[2,4]` but NaN before it. -/
def srcB : List JsVal := [none, none, some 2, some 5, some 4]

/-- A source whose windows of length 3 eventually hold no valid sample. -/
def srcC6 : List JsVal := [some 1, some 3, some 2, none, none, none]

/-- The linear-interpolation quantile of an (already sorted) buffer — the
common value that the three quantile paths of the source (selection-based
`_quantileFromBuf`, the `qs.length <= 10` repeated-selection loop, and the
`qs.length > 10` sort-once loop) are proved below to compute. -/
def quantileOfSorted (s : List ℚ) (q : ℚ) : ℚ :=
  let m := s.length
  let idx := ((m : ℚ) - 1) * q
  let lo := ⌊idx⌋
  if lo = ⌈idx⌉ then s.getD lo.toNat 0
  else s.getD lo.toNat 0 * (1 - (idx - (lo : ℚ))) +
    s.getD (lo.toNat + 1) 0 * (idx - (lo : ℚ))

/-- The value `quantile(source, q)` computes for in-range `q` (NaN when no
valid sample). -/
def quantileValue (source : List JsVal) (q : ℚ) : JsVal :=
  if (compactValid source).length = 0 then none
  else some (quantileOfSorted (sortBuf (compactValid source)) q)

/-- What the scan loop of `_partition` guarantees, relative to the
enclosing partition range `[left0, right]` and the running store pointer:
the result permutes the buffer, touches only `[left0, right)`, draws the
values of that range from the range, and splits `[left0, res.1) < pv ≤
[res.1, right)`. -/
structure PartGoSpec (pv : ℚ) (left0 store right : ℕ) (arr : List ℚ)
    (res : ℕ × List ℚ) : Prop where
  len : res.2.length = arr.length
  perm : res.2.Perm arr
  outside : ∀ t, t < left0 ∨ right ≤ t → res.2.getD t 0 = arr.getD t 0
  store_ge : store ≤ res.1
  store_le : res.1 ≤ right
  rng : ∀ t, left0 ≤ t → t ≤ right → ∃ u, left0 ≤ u ∧ u ≤ right ∧
    res.2.getD t 0 = arr.getD u 0
  small : ∀ t, left0 ≤ t → t < res.1 → res.2.getD t 0 < pv
  big : ∀ t, res.1 ≤ t → t < right → ¬ res.2.getD t 0 < pv

/-- What `_partition` guarantees: the returned position `res.1` carries
the pivot value, everything left of it in `[left, right]` is smaller,
everything right of it is at least it; the buffer outside `[left, right]`
is untouched and the whole buffer is permuted. -/
structure PartitionSpec (left right : ℕ) (arr : List ℚ) (res : ℕ × List ℚ) : Prop where
  len : res.2.length = arr.length
  perm : res.2.Perm arr
  outside : ∀ t, t < left ∨ right < t → res.2.getD t 0 = arr.getD t 0
  p_ge : left ≤ res.1
  p_le : res.1 ≤ right
  rng : ∀ t, left ≤ t → t ≤ right → ∃ u, left ≤ u ∧ u ≤ right ∧
    res.2.getD t 0 = arr.getD u 0
  small : ∀ t, left ≤ t → t < res.1 → res.2.getD t 0 < res.2.getD res.1 0
  big : ∀ t, res.1 < t → t ≤ right → res.2.getD res.1 0 ≤ res.2.getD t 0

/-- What `_quickselect` guarantees on a range below the Floyd–Rivest
threshold: in-place selection — the buffer is permuted within
`[left, right]` only, position `k` ends up order-separating the range, and
the returned value is the final `buf[k]`. -/
structure QuickSpec (k left right : ℕ) (arr : List ℚ) (res : ℚ × List ℚ) : Prop where
  len : res.2.length = arr.length
  perm : res.2.Perm arr
  outside : ∀ t, t < left ∨ right < t → res.2.getD t 0 = arr.getD t 0
  rng : ∀ t, left ≤ t → t ≤ right → ∃ u, left ≤ u ∧ u ≤ right ∧
    res.2.getD t 0 = arr.getD u 0
  partitioned : ∀ i j, left ≤ i → i ≤ k → k ≤ j → j ≤ right →
    res.2.getD i 0 ≤ res.2.getD j 0
  value : res.1 = res.2.getD k 0

/-- The contents of the `source` slot observed after a store-passing call
(unchanged by a thrown error). -/
def srcSlotAfter {α : Type} (e : Except String (α × Store)) (store : Store)
    (srcId : ℕ) : List JsVal :=
  match e with
  | .ok r => r.2.getD srcId []
  | .error _ => store.getD srcId []

/-! # Theorems -/

set_option maxRecDepth 100000
set_option maxHeartbeats 4000000

/-- **C1.** The claimed invariant fails on the code: in
`slidingQuantileHeap([1,3,2,5,4], 3, 0.5)`, after the rebalance step of
iteration `i = 4`, the counter sum `sizeLower + sizeUpper` is `4` although
the window `(2,5,4)` holds only `3` valid samples, and **no** index at all
is owned by the lower heap (`owner` marks only indices 3 and 4, both
upper), although the claimed target is `floor((3-1)·0.5)+1 = 2`.  The root
cause is that `popHeap` clears `owner[top]` and the rebalance move loops
never reassign ownership, so moved indices are silently skipped by the
evict step and are counted (and kept in their heap) forever. -/
theorem quantile_c1_invariant_violated :
    (sqhRebalance srcA (1/2) (sqhEvict 3 4 (sqhAdmit srcA 4 (sqhStateAt srcA 3 (1/2) 4)))).sizeLower +
      (sqhRebalance srcA (1/2) (sqhEvict 3 4 (sqhAdmit srcA 4 (sqhStateAt srcA 3 (1/2) 4)))).sizeUpper = 4 ∧
    windowValidCount srcA 3 4 = 3 ∧
    (sqhRebalance srcA (1/2) (sqhEvict 3 4 (sqhAdmit srcA 4 (sqhStateAt srcA 3 (1/2) 4)))).owner.count 1 = 0 := by
  with_unfolding_all decide

/-- **C2.** The incremental engine disagrees with the batch engine on a
NaN-free input even at `q = 0.5`, where both quantile conventions
coincide: `rollquantile([1,3,2,5,4], 3, 0.5)[4] = 3.5` while the batch
`quantile([2,5,4], 0.5) = 4` (the window median).  This is the owner-bug
of C1: index 1 (value 3) was moved between heaps at `i = 3`, lost its
ownership mark, is never evicted, and its stale value is averaged into the
output at `i = 4`. -/
theorem quantile_c2_engines_disagree :
    rollquantile srcA 3 (1/2) = .ok [none, none, some 2, some 3, some ((7 : ℚ)/2)] ∧
    quantile jsMathV8 [some 2, some 5, some 4] (1/2) = .ok (some 4) :=
  ⟨by with_unfolding_all rfl, by with_unfolding_all rfl⟩

/-- **C3.** For the 601-element buffer `arrC3` (`1000` at position 0, `i`
at positions `1..600`) and rank `k = 600` over `[0, 600]` — a range of
`601 > 600` elements, so the Floyd–Rivest branch runs — `_quickselect`
returns `600`, but position `600` of the sorted buffer holds `1000` (the
unique maximum, sitting at position 0, outside the narrowed window
`[572, 600]` that the implementation wrongly restricts the search to). -/
theorem quantile_c3_quickselect_wrong :
    (_quickselect jsMathV8 1300 arrC3 600 0 600).1 = 600 ∧
    (sortBuf arrC3).getD 600 0 = 1000 ∧
    arrC3.length = 601 := by
  refine ⟨by with_unfolding_all rfl, by with_unfolding_all rfl, by decide⟩

/-- **C6.** `rollquantile([1,3,2,NaN,NaN,NaN], 3, 0.5)[5] = 2` although
the window ending at `i = 5` contains zero valid samples, so the claimed
"`out[i]` is NaN iff …" equivalence fails in the *only if* direction:
index 2 (value 2) was moved between heaps at `i = 2`, lost its ownership
mark, is never evicted, and keeps `total` at 1. -/
theorem quantile_c6_nan_iff_violated :
    rollquantile srcC6 3 (1/2) =
      .ok [none, none, some 2, some ((5 : ℚ)/2), some 2, some 2] ∧
    windowValidCount srcC6 3 5 = 0 :=
  ⟨by with_unfolding_all rfl, by decide⟩

/-- **C10.** Two sources of equal length that agree on the whole window
`[2, 4]` produce different outputs at `i = 4`:
`rollquantile([1,3,2,5,4], 3, 0.5)[4] = 3.5` but
`rollquantile([NaN,NaN,2,5,4], 3, 0.5)[4] = 4`.  The output position
depends on out-of-window elements through the stale moved index of C1. -/
theorem quantile_c10_window_dependence_violated :
    rollquantile srcA 3 (1/2) = .ok [none, none, some 2, some 3, some ((7 : ℚ)/2)] ∧
    rollquantile srcB 3 (1/2) = .ok [none, none, some 2, some ((7 : ℚ)/2), some 4] ∧
    srcA.drop 2 = srcB.drop 2 ∧ srcA.length = srcB.length :=
  ⟨by with_unfolding_all rfl, by with_unfolding_all rfl, by decide, by decide⟩

/-- **C5 (counterexample).** With `source = [1]`, `period = 2` and the
invalid `q = 2`, both `slidingQuantileHeap` and `rollquantile` return the
all-NaN array instead of throwing: the `n < period` early return at line
164 runs *before* the `q` validation at line 174, so the claim's
"including when `source.length < period`" is false. -/
theorem quantile_c5_counterexample :
    rollquantile [some 1] 2 2 = .ok [none] ∧
    slidingQuantileHeap [some 1] 2 2 = .ok [none] :=
  ⟨by with_unfolding_all rfl, by with_unfolding_all rfl⟩

/-- **C5 (amended).** `slidingQuantileHeap` (hence `rollquantile`) throws
`q must be in [0,1]` for `q` outside `[0,1]` whenever `period > 0` and
`source.length ≥ period`; when `source.length < period` it instead
returns the all-NaN array without validating `q`. -/
theorem quantile_c5_amended (a : List JsVal) (period : ℕ) (q : ℚ)
    (hp : period ≠ 0) (hn : period ≤ a.length) (hq : q < 0 ∨ 1 < q) :
    slidingQuantileHeap a period q = .error "q must be in [0,1]" ∧
    rollquantile a period q = .error "q must be in [0,1]" := by
  have h1 : ¬ (a.length < period) := Nat.not_lt.mpr hn
  constructor <;> simp [slidingQuantileHeap, rollquantile, hp, h1, hq]

/-- Witness for C5 (amended) at `source = [1,2]`, `period = 1`, `q = -1`. -/
theorem quantile_c5_amended_witness :
    slidingQuantileHeap [some 1, some 2] 1 (-1) = .error "q must be in [0,1]" ∧
    rollquantile [some 1, some 2] 1 (-1) = .error "q must be in [0,1]" :=
  quantile_c5_amended [some 1, some 2] 1 (-1) (by decide) (by decide)
    (Or.inl (by norm_num))

/-! ## Locating one loop iteration inside the engine output -/

theorem sqhStateAt_succ (a : List JsVal) (period : ℕ) (q : ℚ) (i : ℕ) :
    sqhStateAt a period q (i + 1) = (sqhStep a period q i (sqhStateAt a period q i)).1 := rfl

/-- When `i` is an emit position, one `sqhGo` iteration conses the emitted
value of the step at `i`. -/
theorem sqhGo_cons (a : List JsVal) (period : ℕ) (q : ℚ) (rem i : ℕ) (s : SqhState)
    (h : period - 1 ≤ i) :
    sqhGo a period q (rem + 1) i s =
      (sqhEmit a (sqhRebalance a q (sqhEvict period i (sqhAdmit a i s)))).2 ::
        sqhGo a period q rem (i + 1) (sqhStep a period q i s).1 := by
  have hstep : sqhStep a period q i s =
      ((sqhEmit a (sqhRebalance a q (sqhEvict period i (sqhAdmit a i s)))).1,
       some (sqhEmit a (sqhRebalance a q (sqhEvict period i (sqhAdmit a i s)))).2) := by
    simp [sqhStep, h]
  simp [sqhGo, hstep]

/-- When `i` is below the first emit position, one `sqhGo` iteration emits
nothing. -/
theorem sqhGo_skip (a : List JsVal) (period : ℕ) (q : ℚ) (rem i : ℕ) (s : SqhState)
    (h : ¬ period - 1 ≤ i) :
    sqhGo a period q (rem + 1) i s = sqhGo a period q rem (i + 1) (sqhStep a period q i s).1 := by
  have hstep : sqhStep a period q i s =
      (sqhRebalance a q (sqhEvict period i (sqhAdmit a i s)), none) := by
    simp [sqhStep, h]
  simp [sqhGo, hstep]

/-- Skipping the silent prefix: the run from `i` is the run from `i + d`
as long as `i + d` stays at or below the first emit position. -/
theorem sqhGo_drop (a : List JsVal) (period : ℕ) (q : ℚ) :
    ∀ (d i rem : ℕ), i + d ≤ period - 1 →
      sqhGo a period q (d + rem) i (sqhStateAt a period q i) =
        sqhGo a period q rem (i + d) (sqhStateAt a period q (i + d)) := by
  intro d
  induction d with
  | zero => intro i rem _; simp
  | succ d ih =>
    intro i rem hle
    have hi : ¬ period - 1 ≤ i := by omega
    have h1 : d + 1 + rem = (d + rem) + 1 := by omega
    rw [h1, sqhGo_skip a period q (d + rem) i _ hi, ← sqhStateAt_succ]
    have h2 : i + (d + 1) = (i + 1) + d := by omega
    rw [h2]
    exact ih (i + 1) rem (by omega)

/-- Position `j` of the emitted tail equals the emit value of the step at
`j` (running from any emit position `i ≤ j`). -/
theorem sqhGo_getD (a : List JsVal) (period : ℕ) (q : ℚ) :
    ∀ (rem i j : ℕ), period - 1 ≤ i → i ≤ j → j < i + rem →
      (sqhGo a period q rem i (sqhStateAt a period q i)).getD (j - i) none =
        (sqhEmit a (sqhRebalance a q (sqhEvict period j (sqhAdmit a j (sqhStateAt a period q j))))).2 := by
  intro rem
  induction rem with
  | zero => intro i j _ h1 h2; omega
  | succ rem ih =>
    intro i j hi hij hlt
    rw [sqhGo_cons a period q rem i _ hi, ← sqhStateAt_succ]
    rcases Nat.eq_or_lt_of_le hij with rfl | hlt'
    · simp
    · have h1 : j - i = (j - (i + 1)) + 1 := by omega
      rw [h1, List.getD_cons_succ]
      exact ih (i + 1) j (by omega) (by omega) (by omega)

/-- The engine output at an emit position `i` is the emit value of the
step at `i`: the bridge between `slidingQuantileHeap`'s result list and
the per-iteration state. -/
theorem sqhOut_getD (a : List JsVal) (period : ℕ) (q : ℚ) (i : ℕ) (out : List JsVal)
    (hp : period ≠ 0) (hn : period ≤ a.length) (hq : ¬ (q < 0 ∨ 1 < q))
    (hi1 : period - 1 ≤ i) (hi2 : i < a.length)
    (hout : slidingQuantileHeap a period q = .ok out) :
    out.getD i none =
      (sqhEmit a (sqhRebalance a q (sqhEvict period i (sqhAdmit a i (sqhStateAt a period q i))))).2 := by
  have h1 : ¬ (a.length < period) := Nat.not_lt.mpr hn
  have hout' : out = List.replicate (period - 1) (none : JsVal) ++
      sqhGo a period q a.length 0 (sqhInit a.length period) := by
    rw [slidingQuantileHeap] at hout
    simp only [hp, h1, hq, if_false, if_neg, reduceIte] at hout
    exact (Except.ok.injEq _ _).mp hout.symm ▸ rfl
  subst hout'
  have hinit : sqhInit a.length period = sqhStateAt a period q 0 := rfl
  have hsplit : a.length = (period - 1) + (a.length - (period - 1)) := by omega
  rw [hinit, hsplit, sqhGo_drop a period q (period - 1) 0 (a.length - (period - 1)) (by omega)]
  have hgd : (List.replicate (period - 1) (none : JsVal) ++
      sqhGo a period q (a.length - (period - 1)) (0 + (period - 1))
        (sqhStateAt a period q (0 + (period - 1)))).getD i none =
      (sqhGo a period q (a.length - (period - 1)) (0 + (period - 1))
        (sqhStateAt a period q (0 + (period - 1)))).getD (i - (period - 1)) none := by
    rw [List.getD_eq_getElem?_getD, List.getElem?_append_right (by simpa using hi1),
      List.length_replicate, ← List.getD_eq_getElem?_getD]
  rw [hgd]
  have h0 : (0 : ℕ) + (period - 1) = period - 1 := by omega
  rw [h0]
  exact sqhGo_getD a period q (a.length - (period - 1)) (period - 1) i (le_refl _) hi1 (by omega)

/-- **C4 (counterexample).** At `rollquantile([1,2], 2, 0)`, emit position
`i = 1`: the window holds `2` valid samples (even, nonzero) and
`q = 0 ≠ 0.5`, the value at the lower heap's top is `1`, yet the emitted
value is `1.5` — the code averages the two heap tops for every even total
regardless of `q`, so the claimed general-`q` single-order-statistic path
does not exist. -/
theorem quantile_c4_counterexample :
    rollquantile [some 1, some 2] 2 0 = .ok [none, some ((3 : ℚ)/2)] ∧
    windowValidCount [some 1, some 2] 2 1 = 2 ∧
    valAt [some 1, some 2]
      (i32get (pruneUpper [some 1, some 2] (pruneLower [some 1, some 2]
        (sqhRebalance [some 1, some 2] 0 (sqhEvict 2 1 (sqhAdmit [some 1, some 2] 1
          (sqhStateAt [some 1, some 2] 2 0 1)))))).lowerHeap 0) = some 1 ∧
    ¬ ((3 : ℚ)/2 = 1) ∧ ¬ ((0 : ℚ) = 1/2) := by
  refine ⟨by with_unfolding_all rfl, by decide, by with_unfolding_all rfl,
    by norm_num, by norm_num⟩

/-- **C4 (amended).** At every emit position whose post-rebalance,
post-prune state has an even, nonzero `total = sizeLower + sizeUpper`, the
emitted value is the *average* of the values at the two heap root slots —
for every `q`, not only `q = 0.5` (and when `q = 1` empties the upper
heap, the stale root slot is what gets averaged). -/
theorem quantile_c4_amended (a : List JsVal) (period : ℕ) (q : ℚ) (i : ℕ)
    (out : List JsVal) (s : SqhState)
    (hp : period ≠ 0) (hn : period ≤ a.length) (hq0 : 0 ≤ q) (hq1 : q ≤ 1)
    (hi1 : period - 1 ≤ i) (hi2 : i < a.length)
    (hout : slidingQuantileHeap a period q = .ok out)
    (hs : s = pruneUpper a (pruneLower a
      (sqhRebalance a q (sqhEvict period i (sqhAdmit a i (sqhStateAt a period q i))))))
    (heven : jsOdd (s.sizeLower + s.sizeUpper) = false)
    (hnz : s.sizeLower + s.sizeUpper ≠ 0) :
    out.getD i none =
      jsAvg (valAt a (i32get s.lowerHeap 0)) (valAt a (i32get s.upperHeap 0)) := by
  have hq : ¬ (q < 0 ∨ 1 < q) := by
    push_neg
    exact ⟨hq0, hq1⟩
  rw [sqhOut_getD a period q i out hp hn hq hi1 hi2 hout]
  rw [sqhEmit, ← hs]
  simp [hnz, heven]

/-! ## C8: the input array is never modified -/

theorem getD_append_left {α : Type} (l₁ l₂ : List α) (i : ℕ) (d : α)
    (h : i < l₁.length) : (l₁ ++ l₂).getD i d = l₁.getD i d := by
  rw [List.getD_eq_getElem?_getD, List.getD_eq_getElem?_getD,
    List.getElem?_append_left h]

theorem getD_set_ne {α : Type} (l : List α) (j : ℕ) (x : α) (i : ℕ) (d : α)
    (h : j ≠ i) : (l.set j x).getD i d = l.getD i d := by
  rw [List.getD_eq_getElem?_getD, List.getD_eq_getElem?_getD, List.getElem?_set]
  simp [h]

/-- `quantile` leaves the source slot untouched: its selection buffer is
the fresh slot `store.length`. -/
theorem quantileSt_source_eq (jm : JsMath) (store : Store) (srcId : ℕ) (q : ℚ)
    (h : srcId < store.length) :
    srcSlotAfter (quantileSt jm store srcId q) store srcId = store.getD srcId [] := by
  have hne : store.length ≠ srcId := by omega
  have happ : ∀ x : List JsVal, (store ++ [x]).getD srcId [] = store.getD srcId [] :=
    fun x => getD_append_left store [x] srcId [] h
  simp only [quantileSt]
  split_ifs with h1 h2 h3
  · rfl
  · rfl
  · exact happ _
  · show ((store ++ _).set store.length _).getD srcId [] = _
    rw [getD_set_ne _ _ _ _ _ (by simpa using hne)]
    exact happ _

/-- `percentiles` leaves the source slot untouched in every path. -/
theorem percentilesSt_source_eq (jm : JsMath) (store : Store) (srcId : ℕ)
    (qs : List ℚ) (h : srcId < store.length) :
    srcSlotAfter (percentilesSt jm store srcId qs) store srcId = store.getD srcId [] := by
  have hne : store.length ≠ srcId := by omega
  have happ : ∀ x : List JsVal, (store ++ [x]).getD srcId [] = store.getD srcId [] :=
    fun x => getD_append_left store [x] srcId [] h
  match qs with
  | [] => rfl
  | [q0] =>
    have hq := quantileSt_source_eq jm store srcId q0 h
    simp only [percentilesSt]
    cases hqq : quantileSt jm store srcId q0 with
    | error e => rw [hqq] at hq; exact hq
    | ok r => rw [hqq] at hq; exact hq
  | q0 :: q1 :: qs' =>
    simp only [percentilesSt]
    split_ifs with h1 h2
    · exact happ _
    · show ((store ++ _).set store.length _).getD srcId [] = _
      rw [getD_set_ne _ _ _ _ _ (by simpa using hne)]
      exact happ _
    · show ((store ++ _).set store.length _).getD srcId [] = _
      rw [getD_set_ne _ _ _ _ _ (by simpa using hne)]
      exact happ _

/-- The sliding engine only reads the source slot. -/
theorem slidingQuantileHeapSt_source_eq (store : Store) (srcId : ℕ)
    (period : ℕ) (q : ℚ) (h : srcId < store.length) :
    srcSlotAfter (slidingQuantileHeapSt store srcId period q) store srcId =
      store.getD srcId [] := by
  simp only [slidingQuantileHeapSt]
  cases slidingQuantileHeap (store.getD srcId []) period q with
  | error e => rfl
  | ok out => exact getD_append_left store _ srcId [] h

/-- **C8.** None of `quantile`, `median`, `percentiles`, `rollmedian`,
`rollquantile` modifies the input array: in the store-passing
translations, the buffer that selection permutes in place is always the
freshly allocated slot (`new Float64Array(...)` = slot `store.length`),
and the source slot's contents after any of the five calls are its
original contents. -/
theorem quantile_c8_source_never_modified (jm : JsMath) (store : Store)
    (srcId : ℕ) (q : ℚ) (qs : List ℚ) (period : ℕ) (h : srcId < store.length) :
    srcSlotAfter (quantileSt jm store srcId q) store srcId = store.getD srcId [] ∧
    srcSlotAfter (medianSt jm store srcId) store srcId = store.getD srcId [] ∧
    srcSlotAfter (percentilesSt jm store srcId qs) store srcId = store.getD srcId [] ∧
    srcSlotAfter (rollmedianSt store srcId period) store srcId = store.getD srcId [] ∧
    srcSlotAfter (rollquantileSt store srcId period q) store srcId = store.getD srcId [] :=
  ⟨quantileSt_source_eq jm store srcId q h,
   quantileSt_source_eq jm store srcId (1/2) h,
   percentilesSt_source_eq jm store srcId qs h,
   slidingQuantileHeapSt_source_eq store srcId period (1/2) h,
   slidingQuantileHeapSt_source_eq store srcId period q h⟩

/-- Witness for C8 at a concrete store: one source array `[3, NaN, 1]`,
queried with `q = 1/2`, `qs = [1/2, 1/4]`, `period = 2`. -/
theorem quantile_c8_source_never_modified_witness :
    srcSlotAfter (quantileSt jsMathV8 [[some 3, none, some 1]] 0 (1/2)) [[some 3, none, some 1]] 0 = [some 3, none, some 1] ∧
    srcSlotAfter (medianSt jsMathV8 [[some 3, none, some 1]] 0) [[some 3, none, some 1]] 0 = [some 3, none, some 1] ∧
    srcSlotAfter (percentilesSt jsMathV8 [[some 3, none, some 1]] 0 [1/2, 1/4]) [[some 3, none, some 1]] 0 = [some 3, none, some 1] ∧
    srcSlotAfter (rollmedianSt [[some 3, none, some 1]] 0 2) [[some 3, none, some 1]] 0 = [some 3, none, some 1] ∧
    srcSlotAfter (rollquantileSt [[some 3, none, some 1]] 0 2 (1/2)) [[some 3, none, some 1]] 0 = [some 3, none, some 1] :=
  quantile_c8_source_never_modified jsMathV8 [[some 3, none, some 1]] 0 (1/2)
    [1/2, 1/4] 2 (by decide)

/-- Witness for C4 (amended) at `source = [1,2]`, `period = 2`, `q = 0`,
`i = 1`: the hypotheses hold and the emitted value `1.5` is the average of
the two root values `1` and `2`. -/
theorem quantile_c4_amended_witness :
    ([none, some ((3 : ℚ)/2)] : List JsVal).getD 1 none =
      jsAvg
        (valAt [some 1, some 2] (i32get (pruneUpper [some 1, some 2] (pruneLower [some 1, some 2]
          (sqhRebalance [some 1, some 2] 0 (sqhEvict 2 1 (sqhAdmit [some 1, some 2] 1
            (sqhStateAt [some 1, some 2] 2 0 1)))))).lowerHeap 0))
        (valAt [some 1, some 2] (i32get (pruneUpper [some 1, some 2] (pruneLower [some 1, some 2]
          (sqhRebalance [some 1, some 2] 0 (sqhEvict 2 1 (sqhAdmit [some 1, some 2] 1
            (sqhStateAt [some 1, some 2] 2 0 1)))))).upperHeap 0)) :=
  quantile_c4_amended [some 1, some 2] 2 0 1 [none, some ((3 : ℚ)/2)] _
    (by decide) (by decide) le_rfl (by norm_num) (by decide) (by decide)
    (by with_unfolding_all rfl) rfl
    (by with_unfolding_all decide) (by with_unfolding_all decide)

/-! ## C7: correctness of quickselect below the Floyd–Rivest threshold

For ranges of at most 600 elements the narrowing step never runs, and
`_quickselect` is a correct in-place selection; from this the three
quantile paths (selection, repeated selection on the shared buffer, sort
once) are proved to agree. -/

open List

theorem count_set_add (x a : ℚ) :
    ∀ (l : List ℚ) (i : ℕ), i < l.length →
      (l.set i a).count x + (if l.getD i 0 = x then 1 else 0) =
        l.count x + (if a = x then 1 else 0) := by
  intro l
  induction l with
  | nil => intro i h; simp at h
  | cons b t ih =>
    intro i h
    cases i with
    | zero =>
      simp only [List.set_cons_zero, List.getD_cons_zero, List.count_cons, beq_iff_eq]
      omega
    | succ i =>
      have ht : i < t.length := by simpa using h
      have := ih i ht
      simp only [List.set_cons_succ, List.getD_cons_succ, List.count_cons, beq_iff_eq]
      omega

theorem _swap_length (arr : List ℚ) (i j : ℕ) : (_swap arr i j).length = arr.length := by
  simp [_swap]

theorem _swap_getD_snd (arr : List ℚ) (i j : ℕ) (hj : j < arr.length) :
    (_swap arr i j).getD j 0 = arr.getD i 0 := by
  unfold _swap
  rw [List.getD_eq_getElem?_getD, List.getElem?_set]
  simp [List.length_set, hj]

theorem _swap_getD_fst (arr : List ℚ) (i j : ℕ) (hi : i < arr.length) (hij : i ≠ j) :
    (_swap arr i j).getD i 0 = arr.getD j 0 := by
  unfold _swap
  rw [List.getD_eq_getElem?_getD, List.getElem?_set]
  simp only [if_neg (Ne.symm hij)]
  rw [List.getElem?_set]
  simp [hi, List.getD_eq_getElem?_getD]

theorem _swap_getD_other (arr : List ℚ) (i j t : ℕ) (h1 : t ≠ i) (h2 : t ≠ j) :
    (_swap arr i j).getD t 0 = arr.getD t 0 := by
  unfold _swap
  rw [List.getD_eq_getElem?_getD, List.getElem?_set]
  simp only [if_neg (Ne.symm h2)]
  rw [List.getElem?_set]
  simp [if_neg (Ne.symm h1), List.getD_eq_getElem?_getD]

theorem _swap_perm (arr : List ℚ) (i j : ℕ) (hi : i < arr.length) (hj : j < arr.length) :
    _swap arr i j ~ arr := by
  rw [List.perm_iff_count]
  intro x
  have h1 := count_set_add x (arr.getD j 0) arr i hi
  have h2 := count_set_add x (arr.getD i 0) (arr.set i (arr.getD j 0)) j
    (by simpa using hj)
  have h3 : (arr.set i (arr.getD j 0)).getD j 0 = arr.getD j 0 := by
    by_cases hij : i = j
    · subst hij
      rw [List.getD_eq_getElem?_getD, List.getElem?_set]
      simp [hi, List.getD_eq_getElem?_getD]
    · rw [List.getD_eq_getElem?_getD, List.getElem?_set]
      simp [hij, List.getD_eq_getElem?_getD]
  simp only [_swap]
  rw [h3] at h2
  omega

theorem partitionGo_spec (pv : ℚ) (left0 right : ℕ) :
    ∀ (fuel : ℕ) (arr : List ℚ) (store i : ℕ),
      fuel = right - i → left0 ≤ store → store ≤ i → i ≤ right → right < arr.length →
      (∀ t, left0 ≤ t → t < store → arr.getD t 0 < pv) →
      (∀ t, store ≤ t → t < i → ¬ arr.getD t 0 < pv) →
      PartGoSpec pv left0 store right arr (_partitionGo fuel arr pv store i right) := by
  intro fuel
  induction fuel with
  | zero =>
    intro arr store i hfuel hls hsi hir hlen hinv1 hinv2
    have hieq : i = right := by omega
    subst hieq
    simp only [_partitionGo]
    exact
      { len := rfl
        perm := List.Perm.refl _
        outside := fun t _ => rfl
        store_ge := le_refl _
        store_le := hsi
        rng := fun t h1 h2 => ⟨t, h1, h2, rfl⟩
        small := hinv1
        big := fun t h1 h2 => hinv2 t h1 h2 }
  | succ fuel ih =>
    intro arr store i hfuel hls hsi hir hlen hinv1 hinv2
    have hir' : i < right := by omega
    have hstlen : store < arr.length := by omega
    have hilen : i < arr.length := by omega
    simp only [_partitionGo, if_pos hir']
    by_cases hlt : arr.getD i 0 < pv
    · rw [if_pos hlt]
      have hswlen := _swap_length arr store i
      have hsw_at_store : (_swap arr store i).getD store 0 = arr.getD i 0 := by
        by_cases hsi' : store = i
        · subst hsi'
          exact _swap_getD_snd arr store store hstlen
        · exact _swap_getD_fst arr store i hstlen hsi'
      have hsw_at_i : (_swap arr store i).getD i 0 = arr.getD store 0 :=
        _swap_getD_snd arr store i hilen
      have hsw_other : ∀ t, t ≠ store → t ≠ i → (_swap arr store i).getD t 0 = arr.getD t 0 :=
        fun t h1 h2 => _swap_getD_other arr store i t h1 h2
      have S := ih (_swap arr store i) (store + 1) (i + 1) (by omega) (by omega)
        (by omega) (by omega) (by omega)
        (by
          intro t ht1 ht2
          rcases Nat.lt_or_ge t store with h | h
          · rw [hsw_other t (by omega) (by omega)]
            exact hinv1 t ht1 h
          · have : t = store := by omega
            subst this
            rw [hsw_at_store]
            exact hlt)
        (by
          intro t ht1 ht2
          rcases Nat.lt_or_ge t i with h | h
          · rw [hsw_other t (by omega) (by omega)]
            exact hinv2 t (by omega) h
          · have : t = i := by omega
            subst this
            rw [hsw_at_i]
            exact hinv2 store (le_refl _) (by omega))
      refine
        { len := S.len.trans hswlen
          perm := S.perm.trans (_swap_perm arr store i hstlen hilen)
          outside := ?_
          store_ge := by have := S.store_ge; omega
          store_le := S.store_le
          rng := ?_
          small := S.small
          big := S.big }
      · intro t ht
        rw [S.outside t ht, hsw_other t (by omega) (by omega)]
      · intro t h1 h2
        obtain ⟨u, hu1, hu2, hu3⟩ := S.rng t h1 h2
        by_cases hus : u = store
        · subst hus
          exact ⟨i, by omega, by omega, by rw [hu3, hsw_at_store]⟩
        · by_cases hui : u = i
          · subst hui
            exact ⟨store, by omega, by omega, by rw [hu3, hsw_at_i]⟩
          · exact ⟨u, hu1, hu2, by rw [hu3, hsw_other u hus hui]⟩
    · rw [if_neg hlt]
      exact ih arr store (i + 1) (by omega) hls (by omega) (by omega) hlen hinv1
        (by
          intro t ht1 ht2
          rcases Nat.lt_or_ge t i with h | h
          · exact hinv2 t ht1 h
          · have : t = i := by omega
            subst this
            exact hlt)

theorem partition_spec (arr : List ℚ) (left right pivotIndex : ℕ)
    (h1 : left ≤ pivotIndex) (h2 : pivotIndex ≤ right) (h3 : right < arr.length) :
    PartitionSpec left right arr (_partition arr left right pivotIndex) := by
  have hpl : pivotIndex < arr.length := by omega
  have ha1len : (_swap arr pivotIndex right).length = arr.length := _swap_length arr pivotIndex right
  have hpvr : (_swap arr pivotIndex right).getD right 0 = arr.getD pivotIndex 0 :=
    _swap_getD_snd arr pivotIndex right h3
  have ha1rng : ∀ u, left ≤ u → u ≤ right →
      ∃ v, left ≤ v ∧ v ≤ right ∧ (_swap arr pivotIndex right).getD u 0 = arr.getD v 0 := by
    intro u hu1 hu2
    by_cases hur : u = right
    · subst hur
      exact ⟨pivotIndex, h1, h2, hpvr⟩
    · by_cases hup : u = pivotIndex
      · subst hup
        exact ⟨right, by omega, le_refl _,
          _swap_getD_fst arr u right hpl (by omega)⟩
      · exact ⟨u, hu1, hu2, _swap_getD_other arr pivotIndex right u hup hur⟩
  have S := partitionGo_spec (arr.getD pivotIndex 0) left right (right - left)
    (_swap arr pivotIndex right) left left rfl (le_refl _) (le_refl _) (by omega)
    (by omega) (by omega) (by omega)
  set pr := _partitionGo (right - left) (_swap arr pivotIndex right)
    (arr.getD pivotIndex 0) left left right with hpr
  obtain ⟨Slen, Sperm, Sout, Sge, Sle, Srng, Ssmall, Sbig⟩ := S
  have ha2len : pr.2.length = arr.length := Slen.trans ha1len
  have hstlen : pr.1 < pr.2.length := by omega
  have hrlen : right < pr.2.length := by omega
  have ha2r : pr.2.getD right 0 = arr.getD pivotIndex 0 := by
    rw [Sout right (Or.inr (le_refl _)), hpvr]
  have hfin_at_st : (_swap pr.2 pr.1 right).getD pr.1 0 = arr.getD pivotIndex 0 := by
    by_cases hsr : pr.1 = right
    · rw [hsr, _swap_getD_snd pr.2 right right hrlen, ← hsr, hsr, ha2r]
    · rw [_swap_getD_fst pr.2 pr.1 right hstlen hsr, ha2r]
  have hfin_other : ∀ t, t ≠ pr.1 → t ≠ right →
      (_swap pr.2 pr.1 right).getD t 0 = pr.2.getD t 0 :=
    fun t ht1 ht2 => _swap_getD_other pr.2 pr.1 right t ht1 ht2
  have hres : _partition arr left right pivotIndex = (pr.1, _swap pr.2 pr.1 right) := by
    simp only [_partition, hpr]
  rw [hres]
  refine
    { len := by
        simpa [_swap_length] using ha2len
      perm := (_swap_perm pr.2 pr.1 right hstlen hrlen).trans
        (Sperm.trans (_swap_perm arr pivotIndex right hpl h3))
      outside := ?_
      p_ge := Sge
      p_le := Sle
      rng := ?_
      small := ?_
      big := ?_ }
  · intro t ht
    have ht1 : t ≠ pr.1 := by omega
    have ht2 : t ≠ right := by omega
    rw [hfin_other t ht1 ht2, Sout t (by omega),
      _swap_getD_other arr pivotIndex right t (by omega) (by omega)]
  · intro t htl htr
    by_cases hts : t = pr.1
    · subst hts
      exact ⟨pivotIndex, h1, h2, hfin_at_st⟩
    · by_cases htr' : t = right
      · rw [htr']
        have := _swap_getD_snd pr.2 pr.1 right hrlen
        obtain ⟨u, hu1, hu2, hu3⟩ := Srng pr.1 Sge Sle
        obtain ⟨v, hv1, hv2, hv3⟩ := ha1rng u hu1 hu2
        exact ⟨v, hv1, hv2, by rw [this, hu3, hv3]⟩
      · obtain ⟨u, hu1, hu2, hu3⟩ := Srng t htl htr
        obtain ⟨v, hv1, hv2, hv3⟩ := ha1rng u hu1 hu2
        exact ⟨v, hv1, hv2, by rw [hfin_other t hts htr', hu3, hv3]⟩
  · intro t htl htr
    have ht2 : t ≠ right := by omega
    rw [hfin_other t (by omega) ht2, hfin_at_st]
    exact Ssmall t htl htr
  · intro t htl htr
    rw [hfin_at_st]
    by_cases htr' : t = right
    · rw [htr', _swap_getD_snd pr.2 pr.1 right hrlen]
      exact not_lt.mp (Sbig pr.1 (le_refl _) (by omega))
    · rw [hfin_other t (by omega) htr']
      exact not_lt.mp (Sbig t (by omega) (by omega))

theorem pivotMedian3_mem (arr : List ℚ) (left right : ℕ) (h : left ≤ right) :
    left ≤ pivotMedian3 arr left right ∧ pivotMedian3 arr left right ≤ right := by
  simp only [pivotMedian3]
  have hd := Nat.div_le_self (right - left) 2
  split_ifs <;> omega

theorem quickselect_spec (jm : JsMath) :
    ∀ (fuel : ℕ) (arr : List ℚ) (k left right : ℕ),
      left ≤ k → k ≤ right → right < arr.length →
      right - left + 1 ≤ 600 → right - left < fuel →
      QuickSpec k left right arr (_quickselect jm fuel arr k left right) := by
  intro fuel
  induction fuel with
  | zero => intro arr k left right h1 h2 h3 h4 h5; omega
  | succ fuel ih =>
    intro arr k left right h1 h2 h3 h4 h5
    by_cases hlr : left < right
    · have hn600 : ¬ (600 < right - left + 1) := by omega
      simp only [_quickselect, if_pos hlr, if_neg hn600]
      obtain ⟨hp1, hp2⟩ := pivotMedian3_mem arr left right (by omega)
      have P := partition_spec arr left right (pivotMedian3 arr left right) hp1 hp2 h3
      set pr := _partition arr left right (pivotMedian3 arr left right) with hprdef
      obtain ⟨Plen, Pperm, Pout, Pge, Ple, Prng, Psmall, Pbig⟩ := P
      by_cases hkp : k = pr.1
      · rw [if_pos hkp]
        refine
          { len := Plen
            perm := Pperm
            outside := Pout
            rng := Prng
            partitioned := ?_
            value := rfl }
        intro i j hi1 hi2 hj1 hj2
        have hik : pr.2.getD i 0 ≤ pr.2.getD k 0 := by
          rcases Nat.lt_or_ge i k with h | h
          · exact le_of_lt (hkp ▸ Psmall i hi1 (hkp ▸ h))
          · have : i = k := by omega
            rw [this]
        have hkj : pr.2.getD k 0 ≤ pr.2.getD j 0 := by
          rcases Nat.lt_or_ge k j with h | h
          · exact hkp ▸ Pbig j (hkp ▸ h) hj2
          · have : j = k := by omega
            rw [this]
        exact hik.trans hkj
      · by_cases hklt : k < pr.1
        · rw [if_neg hkp, if_pos hklt]
          have R := ih pr.2 k left (pr.1 - 1) h1 (by omega) (by omega) (by omega) (by omega)
          obtain ⟨Rlen, Rperm, Rout, Rrng, Rpart, Rval⟩ := R
          have hRuntouched : ∀ t, pr.1 ≤ t →
              (_quickselect jm fuel pr.2 k left (pr.1 - 1)).2.getD t 0 = pr.2.getD t 0 :=
            fun t ht => Rout t (Or.inr (by omega))
          refine
            { len := Rlen.trans Plen
              perm := Rperm.trans Pperm
              outside := ?_
              rng := ?_
              partitioned := ?_
              value := Rval }
          · intro t ht
            have h' : t < left ∨ pr.1 - 1 < t := by omega
            rw [Rout t h', Pout t ht]
          · intro t ht1 ht2
            rcases Nat.lt_or_ge t pr.1 with h | h
            · obtain ⟨u, hu1, hu2, hu3⟩ := Rrng t ht1 (by omega)
              obtain ⟨v, hv1, hv2, hv3⟩ := Prng u hu1 (by omega)
              exact ⟨v, hv1, hv2, by rw [hu3, hv3]⟩
            · obtain ⟨v, hv1, hv2, hv3⟩ := Prng t ht1 ht2
              exact ⟨v, hv1, hv2, by rw [hRuntouched t h, hv3]⟩
          · intro i j hi1 hi2 hj1 hj2
            rcases Nat.lt_or_ge j pr.1 with h | h
            · exact Rpart i j hi1 hi2 hj1 (by omega)
            · have hjv : pr.2.getD pr.1 0 ≤
                  (_quickselect jm fuel pr.2 k left (pr.1 - 1)).2.getD j 0 := by
                rw [hRuntouched j h]
                rcases Nat.eq_or_lt_of_le h with h' | h'
                · rw [← h']
                · exact Pbig j h' hj2
              have hkv : (_quickselect jm fuel pr.2 k left (pr.1 - 1)).2.getD k 0 ≤
                  pr.2.getD pr.1 0 := by
                obtain ⟨u, hu1, hu2, hu3⟩ := Rrng k h1 (by omega)
                rw [hu3]
                exact le_of_lt (Psmall u hu1 (by omega))
              exact ((Rpart i k hi1 hi2 (le_refl _) (by omega)).trans hkv).trans hjv
        · have hkgt : pr.1 < k := by omega
          rw [if_neg hkp, if_neg hklt]
          have R := ih pr.2 k (pr.1 + 1) right (by omega) h2 (by omega) (by omega) (by omega)
          obtain ⟨Rlen, Rperm, Rout, Rrng, Rpart, Rval⟩ := R
          have hRuntouched : ∀ t, t ≤ pr.1 →
              (_quickselect jm fuel pr.2 k (pr.1 + 1) right).2.getD t 0 = pr.2.getD t 0 :=
            fun t ht => Rout t (Or.inl (by omega))
          refine
            { len := Rlen.trans Plen
              perm := Rperm.trans Pperm
              outside := ?_
              rng := ?_
              partitioned := ?_
              value := Rval }
          · intro t ht
            have h' : t < pr.1 + 1 ∨ right < t := by omega
            rw [Rout t h', Pout t ht]
          · intro t ht1 ht2
            rcases Nat.lt_or_ge t (pr.1 + 1) with h | h
            · obtain ⟨v, hv1, hv2, hv3⟩ := Prng t ht1 ht2
              exact ⟨v, hv1, hv2, by rw [hRuntouched t (by omega), hv3]⟩
            · obtain ⟨u, hu1, hu2, hu3⟩ := Rrng t h ht2
              obtain ⟨v, hv1, hv2, hv3⟩ := Prng u (by omega) hu2
              exact ⟨v, hv1, hv2, by rw [hu3, hv3]⟩
          · intro i j hi1 hi2 hj1 hj2
            rcases Nat.lt_or_ge i (pr.1 + 1) with h | h
            · have hiv : (_quickselect jm fuel pr.2 k (pr.1 + 1) right).2.getD i 0 ≤
                  pr.2.getD pr.1 0 := by
                rw [hRuntouched i (by omega)]
                rcases Nat.eq_or_lt_of_le (Nat.lt_succ_iff.mp h) with h' | h'
                · rw [h']
                · exact le_of_lt (Psmall i hi1 h')
              have hjv : pr.2.getD pr.1 0 ≤
                  (_quickselect jm fuel pr.2 k (pr.1 + 1) right).2.getD j 0 := by
                obtain ⟨u, hu1, hu2, hu3⟩ := Rrng j (by omega) hj2
                rw [hu3]
                exact Pbig u (by omega) hu2
              exact (hiv.trans hjv).trans (le_refl _)
            · exact Rpart i j h hi2 hj1 hj2
    · have hk : k = left := by omega
      simp only [_quickselect, if_neg hlr]
      exact
        { len := rfl
          perm := List.Perm.refl _
          outside := fun t _ => rfl
          rng := fun t ht1 ht2 => ⟨t, ht1, ht2, rfl⟩
          partitioned := by
            intro i j hi1 hi2 hj1 hj2
            have : i = j := by omega
            rw [this]
          value := by rw [hk] }

/-! ### Rank counting: a partitioned position holds the sorted rank -/

theorem countP_eq_length_filter_range (p : ℚ → Bool) (l : List ℚ) :
    l.countP p = ((List.range l.length).filter (fun i => p (l.getD i 0))).length := by
  induction l with
  | nil => simp
  | cons a t ih =>
    rw [List.countP_cons, ih]
    simp only [List.length_cons, List.range_succ_eq_map, List.filter_cons,
      List.getD_cons_zero, List.filter_map]
    have hcomp : ((fun i => p ((a :: t).getD i 0)) ∘ Nat.succ) =
        (fun i => p (t.getD i 0)) := by
      funext i
      simp [List.getD_cons_succ, Function.comp]
    rw [hcomp]
    by_cases hpa : p a
    · simp [hpa]
    · simp [hpa]

theorem countP_le_of_pos_lt (p : ℚ → Bool) (l : List ℚ) (m : ℕ)
    (h : ∀ i, i < l.length → p (l.getD i 0) → i < m) : l.countP p ≤ m := by
  rw [countP_eq_length_filter_range]
  have hsub : ((List.range l.length).filter (fun i => p (l.getD i 0))) ⊆ List.range m := by
    intro x hx
    simp only [List.mem_filter, List.mem_range] at hx ⊢
    exact h x hx.1 hx.2
  have hnd : ((List.range l.length).filter (fun i => p (l.getD i 0))).Nodup :=
    (List.nodup_range _).filter _
  simpa using (List.subperm_of_subset hnd hsub).length_le

theorem le_countP_of_lt_pos (p : ℚ → Bool) (l : List ℚ) (m : ℕ)
    (hm : m ≤ l.length) (h : ∀ i, i < m → p (l.getD i 0)) : m ≤ l.countP p := by
  rw [countP_eq_length_filter_range]
  have hsub : List.range m ⊆ (List.range l.length).filter (fun i => p (l.getD i 0)) := by
    intro x hx
    simp only [List.mem_range] at hx
    simp only [List.mem_filter, List.mem_range]
    exact ⟨by omega, h x hx⟩
  simpa using (List.subperm_of_subset (List.nodup_range m) hsub).length_le

theorem sorted_getD_mono (s : List ℚ) (hs : s.Sorted (· ≤ ·)) (i j : ℕ)
    (hij : i ≤ j) (hj : j < s.length) : s.getD i 0 ≤ s.getD j 0 := by
  rcases eq_or_lt_of_le hij with rfl | h
  · exact le_refl _
  · have hi : i < s.length := by omega
    have := hs.rel_get_of_lt (show (⟨i, hi⟩ : Fin s.length) < ⟨j, hj⟩ from h)
    rw [List.getD_eq_getElem?_getD, List.getD_eq_getElem?_getD,
      List.getElem?_eq_getElem hi, List.getElem?_eq_getElem hj]
    simpa using this

theorem partitioned_rank (l s : List ℚ) (k : ℕ) (h : l.Perm s)
    (hs : s.Sorted (· ≤ ·)) (hk : k < l.length)
    (hpart : ∀ i j, i ≤ k → k ≤ j → j < l.length → l.getD i 0 ≤ l.getD j 0) :
    l.getD k 0 = s.getD k 0 := by
  have hlen : l.length = s.length := h.length_eq
  have hA : k + 1 ≤ l.countP (fun v => decide (v ≤ l.getD k 0)) := by
    refine le_countP_of_lt_pos _ _ (k + 1) (by omega) (fun i hi => ?_)
    simpa using hpart i k (by omega) (le_refl _) hk
  have hB : l.countP (fun v => decide (v < l.getD k 0)) ≤ k := by
    refine countP_le_of_pos_lt _ _ k (fun i hilen hip => ?_)
    by_contra hik
    push_neg at hik
    have hxk := hpart k i (le_refl _) hik hilen
    simp only [decide_eq_true_eq] at hip
    exact absurd hxk (not_le.mpr hip)
  have hsA : k + 1 ≤ s.countP (fun v => decide (v ≤ l.getD k 0)) := by
    rw [← h.countP_eq]
    exact hA
  have hsB : s.countP (fun v => decide (v < l.getD k 0)) ≤ k := by
    rw [← h.countP_eq]
    exact hB
  have h1 : ¬ s.getD k 0 < l.getD k 0 := by
    intro hy
    have : k + 1 ≤ s.countP (fun v => decide (v < l.getD k 0)) := by
      refine le_countP_of_lt_pos _ _ (k + 1) (by omega) (fun i hi => ?_)
      have hmono := sorted_getD_mono s hs i k (by omega) (by omega)
      simp only [decide_eq_true_eq]
      exact lt_of_le_of_lt hmono hy
    omega
  have h2 : ¬ l.getD k 0 < s.getD k 0 := by
    intro hy
    have : s.countP (fun v => decide (v ≤ l.getD k 0)) ≤ k := by
      refine countP_le_of_pos_lt _ _ k (fun i hilen hip => ?_)
      by_contra hik
      push_neg at hik
      have hmono := sorted_getD_mono s hs k i hik (by omega)
      simp only [decide_eq_true_eq] at hip
      exact absurd (le_trans hmono hip) (not_le.mpr hy)
    omega
  exact le_antisymm (not_lt.mp h1) (not_lt.mp h2)

/-- Any duplicate-free list of in-bound positions satisfying `p` bounds
`countP p` from below. -/
theorem length_le_countP (p : ℚ → Bool) (l : List ℚ) (pos : List ℕ)
    (hnd : pos.Nodup) (hmem : ∀ i ∈ pos, i < l.length ∧ p (l.getD i 0)) :
    pos.length ≤ l.countP p := by
  rw [countP_eq_length_filter_range]
  have hsub : pos ⊆ (List.range l.length).filter (fun i => p (l.getD i 0)) := by
    intro x hx
    simp only [List.mem_filter, List.mem_range]
    exact (hmem x hx)
  exact (List.subperm_of_subset hnd hsub).length_le

/-! ### The `hiVal` scan computes the minimum of the suffix -/

theorem hiScan_le_acc (buf : List ℚ) :
    ∀ (fuel i p : ℕ) (a v : ℚ),
      hiScan buf fuel i p (some a) = some v → v ≤ a := by
  intro fuel
  induction fuel with
  | zero =>
    intro i p a v h
    simp only [hiScan] at h
    rw [Option.some_inj] at h
    exact le_of_eq h.symm
  | succ fuel ih =>
    intro i p a v h
    simp only [hiScan] at h
    by_cases hip : i < p
    · rw [if_pos hip] at h
      by_cases hlt : buf.getD i 0 < a
      · rw [if_pos hlt] at h
        exact le_of_lt (lt_of_le_of_lt (ih _ _ _ _ h) hlt)
      · rw [if_neg hlt] at h
        exact ih _ _ _ _ h
    · rw [if_neg hip, Option.some_inj] at h
      rw [h]

theorem hiScan_some (buf : List ℚ) :
    ∀ (fuel i p : ℕ) (a : ℚ),
      ∃ v, hiScan buf fuel i p (some a) = some v := by
  intro fuel
  induction fuel with
  | zero => intro i p a; exact ⟨a, rfl⟩
  | succ fuel ih =>
    intro i p a
    simp only [hiScan]
    by_cases hip : i < p
    · rw [if_pos hip]
      by_cases hlt : buf.getD i 0 < a
      · rw [if_pos hlt]; exact ih _ _ _
      · rw [if_neg hlt]; exact ih _ _ _
    · rw [if_neg hip]; exact ⟨a, rfl⟩

theorem hiScan_lower (buf : List ℚ) :
    ∀ (fuel i p : ℕ) (acc : Option ℚ) (v : ℚ),
      hiScan buf fuel i p acc = some v →
      ∀ t, i ≤ t → t < p → t < i + fuel → v ≤ buf.getD t 0 := by
  intro fuel
  induction fuel with
  | zero => intro i p acc v _ t h1 _ h3; omega
  | succ fuel ih =>
    intro i p acc v h t h1 h2 h3
    simp only [hiScan] at h
    rw [if_pos (by omega : i < p)] at h
    rcases eq_or_lt_of_le h1 with rfl | hti
    · -- t = i: the new accumulator is at most buf[i]
      cases acc with
      | none =>
        simp only at h
        exact hiScan_le_acc buf fuel (i + 1) p _ v h
      | some a =>
        simp only at h
        by_cases hlt : buf.getD i 0 < a
        · rw [if_pos hlt] at h
          exact hiScan_le_acc buf fuel (i + 1) p _ v h
        · rw [if_neg hlt] at h
          exact le_trans (hiScan_le_acc buf fuel (i + 1) p a v h) (not_lt.mp hlt)
    · exact ih (i + 1) p _ v h t hti h2 (by omega)

theorem hiScan_mem (buf : List ℚ) :
    ∀ (fuel i p : ℕ) (acc : Option ℚ) (v : ℚ),
      hiScan buf fuel i p acc = some v →
      (∃ a, acc = some a ∧ v = a) ∨ ∃ t, i ≤ t ∧ t < p ∧ v = buf.getD t 0 := by
  intro fuel
  induction fuel with
  | zero =>
    intro i p acc v h
    simp only [hiScan] at h
    exact .inl ⟨v, h, rfl⟩
  | succ fuel ih =>
    intro i p acc v h
    simp only [hiScan] at h
    by_cases hip : i < p
    · rw [if_pos hip] at h
      have hstep : ∀ (a' : ℚ),
          hiScan buf fuel (i + 1) p (some a') = some v →
          (v = a' ∨ ∃ t, i ≤ t ∧ t < p ∧ v = buf.getD t 0) := by
        intro a' h'
        rcases ih (i + 1) p (some a') v h' with ⟨b, hb, rfl⟩ | ⟨t, ht1, ht2, ht3⟩
        · rw [Option.some_inj] at hb
          exact .inl hb.symm
        · exact .inr ⟨t, by omega, ht2, ht3⟩
      cases acc with
      | none =>
        simp only at h
        rcases hstep _ h with rfl | hex
        · exact .inr ⟨i, le_refl _, hip, rfl⟩
        · exact .inr hex
      | some a =>
        simp only at h
        by_cases hlt : buf.getD i 0 < a
        · rw [if_pos hlt] at h
          rcases hstep _ h with rfl | hex
          · exact .inr ⟨i, le_refl _, hip, rfl⟩
          · exact .inr hex
        · rw [if_neg hlt] at h
          rcases hstep _ h with heq | hex
          · exact .inl ⟨a, rfl, heq⟩
          · exact .inr hex
    · rw [if_neg hip] at h
      exact .inl ⟨v, h, rfl⟩

/-- After partitioning at `k`, the suffix `(k, len)` dominates the sorted
rank `k+1` value and attains it somewhere: its minimum is `s.getD (k+1)`. -/
theorem partitioned_suffix_rank (l s : List ℚ) (k : ℕ) (h : l.Perm s)
    (hs : s.Sorted (· ≤ ·)) (hk1 : k + 1 < l.length)
    (hpart : ∀ i j, i ≤ k → k ≤ j → j < l.length → l.getD i 0 ≤ l.getD j 0) :
    (∀ t, k + 1 ≤ t → t < l.length → s.getD (k + 1) 0 ≤ l.getD t 0) ∧
    (∃ t, k + 1 ≤ t ∧ t < l.length ∧ l.getD t 0 = s.getD (k + 1) 0) := by
  have hlen : l.length = s.length := h.length_eq
  have hlowAll : ∀ t, k + 1 ≤ t → t < l.length → s.getD (k + 1) 0 ≤ l.getD t 0 := by
    intro t ht1 ht2
    by_contra hlt
    push_neg at hlt
    have hcount : k + 2 ≤ l.countP (fun v => decide (v ≤ l.getD t 0)) := by
      have := length_le_countP (fun v => decide (v ≤ l.getD t 0)) l
        (t :: List.range (k + 1))
        (by
          refine List.nodup_cons.mpr ⟨?_, List.nodup_range _⟩
          intro hmem
          rw [List.mem_range] at hmem
          omega)
        (by
          intro i hi
          rcases List.mem_cons.mp hi with rfl | hir
          · exact ⟨ht2, by simp⟩
          · rw [List.mem_range] at hir
            refine ⟨by omega, ?_⟩
            simp only [decide_eq_true_eq]
            exact hpart i t (by omega) (by omega) ht2)
      simpa using this
    have hcount' : s.countP (fun v => decide (v ≤ l.getD t 0)) ≤ k + 1 := by
      refine countP_le_of_pos_lt _ _ (k + 1) (fun i hilen hip => ?_)
      by_contra hik
      push_neg at hik
      have hmono := sorted_getD_mono s hs (k + 1) i hik hilen
      simp only [decide_eq_true_eq] at hip
      exact absurd (le_trans hmono hip) (not_le.mpr hlt)
    rw [h.countP_eq] at hcount
    omega
  refine ⟨hlowAll, ?_⟩
  by_contra hnone
  push_neg at hnone
  have hgt : ∀ t, k + 1 ≤ t → t < l.length → s.getD (k + 1) 0 < l.getD t 0 :=
    fun t ht1 ht2 =>
      lt_of_le_of_ne (hlowAll t ht1 ht2) (fun he => hnone t ht1 ht2 he.symm)
  have hup : l.countP (fun v => decide (v ≤ s.getD (k + 1) 0)) ≤ k + 1 := by
    refine countP_le_of_pos_lt _ _ (k + 1) (fun i hilen hip => ?_)
    by_contra hik
    push_neg at hik
    simp only [decide_eq_true_eq] at hip
    exact absurd hip (not_le.mpr (hgt i hik hilen))
  have hdown : k + 2 ≤ s.countP (fun v => decide (v ≤ s.getD (k + 1) 0)) := by
    refine le_countP_of_lt_pos _ _ (k + 2) (by omega) (fun i hi => ?_)
    simp only [decide_eq_true_eq]
    exact sorted_getD_mono s hs i (k + 1) (by omega) (by omega)
  rw [h.countP_eq] at hup
  omega

theorem hiScan_none_some (buf : List ℚ) (fuel i p : ℕ) (hfuel : 0 < fuel)
    (hip : i < p) : ∃ v, hiScan buf fuel i p none = some v := by
  obtain ⟨f, rfl⟩ : ∃ f, fuel = f + 1 := ⟨fuel - 1, by omega⟩
  simp only [hiScan]
  rw [if_pos hip]
  exact hiScan_some buf f (i + 1) p _

/-- `_quantileFromBuf` on a buffer of at most 600 elements computes the
linear-interpolation quantile of the sorted buffer, and returns a
permutation of the buffer. -/
theorem quantileFromBuf_spec (jm : JsMath) (buf : List ℚ) (q : ℚ)
    (hq0 : 0 ≤ q) (hq1 : q ≤ 1) (h0 : 0 < buf.length)
    (h600 : buf.length ≤ 600) :
    (_quantileFromBuf jm buf buf.length q).1
      = some (quantileOfSorted (sortBuf buf) q) ∧
    (_quantileFromBuf jm buf buf.length q).2.Perm buf := by
  have hslen : (sortBuf buf).length = buf.length :=
    (List.perm_insertionSort _ buf).length_eq
  have hsperm : buf.Perm (sortBuf buf) := (List.perm_insertionSort _ buf).symm
  have hssorted : (sortBuf buf).Sorted (· ≤ ·) := List.sorted_insertionSort _ buf
  have hp1 : (1 : ℚ) ≤ (buf.length : ℚ) := by exact_mod_cast h0
  have hidx0 : 0 ≤ ((buf.length : ℚ) - 1) * q := mul_nonneg (by linarith) hq0
  have hidxle : ((buf.length : ℚ) - 1) * q ≤ (buf.length : ℚ) - 1 :=
    mul_le_of_le_one_right (by linarith) hq1
  have hlo0 : 0 ≤ ⌊((buf.length : ℚ) - 1) * q⌋ := Int.floor_nonneg.mpr hidx0
  have hhile : ⌈((buf.length : ℚ) - 1) * q⌉ ≤ (buf.length : ℤ) - 1 := by
    rw [Int.ceil_le]
    push_cast
    exact hidxle
  have hlole : ⌊((buf.length : ℚ) - 1) * q⌋ ≤ (buf.length : ℤ) - 1 := by
    have h1 := Int.floor_le_ceil (((buf.length : ℚ) - 1) * q)
    omega
  have hqs := quickselect_spec jm (2 * buf.length + 2) buf
    (⌊((buf.length : ℚ) - 1) * q⌋.toNat) 0 (buf.length - 1)
    (Nat.zero_le _) (by omega) (by omega) (by omega) (by omega)
  set kk := ⌊((buf.length : ℚ) - 1) * q⌋.toNat with hkk
  set r := _quickselect jm (2 * buf.length + 2) buf kk 0 (buf.length - 1)
    with hrdef
  have hrlen : r.2.length = buf.length := hqs.len
  have hrs : r.2.Perm (sortBuf buf) := hqs.perm.trans hsperm
  have hpart : ∀ i j, i ≤ kk → kk ≤ j → j < r.2.length →
      r.2.getD i 0 ≤ r.2.getD j 0 := by
    intro i j hi hj hjl
    exact hqs.partitioned i j (Nat.zero_le _) hi hj (by omega)
  have hloval : r.1 = (sortBuf buf).getD kk 0 := by
    rw [hqs.value]
    exact partitioned_rank r.2 (sortBuf buf) kk hrs hssorted (by omega) hpart
  by_cases hlohi : ⌊((buf.length : ℚ) - 1) * q⌋ = ⌈((buf.length : ℚ) - 1) * q⌉
  · have hres : _quantileFromBuf jm buf buf.length q = (some r.1, r.2) := by
      simp only [_quantileFromBuf]
      rw [if_pos hlohi, ← hkk, ← hrdef]
    rw [hres]
    refine ⟨?_, hqs.perm⟩
    show some r.1 = some (quantileOfSorted (sortBuf buf) q)
    rw [hloval]
    simp only [quantileOfSorted]
    rw [hslen, if_pos hlohi]
  · have hhi1 : ⌈((buf.length : ℚ) - 1) * q⌉ = ⌊((buf.length : ℚ) - 1) * q⌋ + 1 := by
      have h1 := Int.floor_le_ceil (((buf.length : ℚ) - 1) * q)
      have h2 := Int.ceil_le_floor_add_one (((buf.length : ℚ) - 1) * q)
      omega
    have hk1 : kk + 1 < buf.length := by omega
    obtain ⟨hlow, t0, ht01, ht02, ht03⟩ :=
      partitioned_suffix_rank r.2 (sortBuf buf) kk hrs hssorted (by omega) hpart
    obtain ⟨v, hv⟩ := hiScan_none_some r.2 buf.length (kk + 1) buf.length
      (by omega) (by omega)
    have hvle : v ≤ r.2.getD t0 0 :=
      hiScan_lower r.2 buf.length (kk + 1) buf.length none v hv t0 ht01
        (by omega) (by omega)
    have hvge : (sortBuf buf).getD (kk + 1) 0 ≤ v := by
      rcases hiScan_mem r.2 buf.length (kk + 1) buf.length none v hv with
        ⟨a, ha, _⟩ | ⟨t, ht1, ht2, ht3⟩
      · exact absurd ha (by simp)
      · rw [ht3]
        exact hlow t ht1 (by omega)
    have hveq : v = (sortBuf buf).getD (kk + 1) 0 :=
      le_antisymm (le_trans hvle (le_of_eq ht03)) hvge
    have hres : _quantileFromBuf jm buf buf.length q =
        (some (r.1 * (1 - (((buf.length : ℚ) - 1) * q -
            (⌊((buf.length : ℚ) - 1) * q⌋ : ℚ))) +
          v * (((buf.length : ℚ) - 1) * q -
            (⌊((buf.length : ℚ) - 1) * q⌋ : ℚ))), r.2) := by
      simp only [_quantileFromBuf]
      rw [if_neg hlohi, ← hkk, ← hrdef, hv]
    rw [hres]
    refine ⟨?_, hqs.perm⟩
    show some _ = some (quantileOfSorted (sortBuf buf) q)
    rw [hloval, hveq]
    simp only [quantileOfSorted]
    rw [hslen, if_neg hlohi]

/-- `quantile` with in-range `q` and at most 600 valid samples returns the
linear-interpolation quantile of the sorted compacted buffer. -/
theorem quantile_eq (jm : JsMath) (source : List JsVal) (q : ℚ)
    (hq0 : 0 ≤ q) (hq1 : q ≤ 1)
    (h600 : (compactValid source).length ≤ 600) :
    quantile jm source q = .ok (quantileValue source q) := by
  have hnot : ¬ (q < 0 ∨ 1 < q) := by
    push_neg
    exact ⟨hq0, hq1⟩
  simp only [quantile, quantileValue]
  rw [if_neg hnot]
  by_cases hsrc : source.length = 0
  · rw [if_pos hsrc]
    have hnil : source = [] := List.length_eq_zero.mp hsrc
    rw [if_pos (by rw [hnil]; rfl)]
  · rw [if_neg hsrc]
    by_cases hp : (compactValid source).length = 0
    · rw [if_pos hp, if_pos hp]
    · rw [if_neg hp, if_neg hp]
      exact congrArg Except.ok
        (quantileFromBuf_spec jm (compactValid source) q hq0 hq1 (by omega) h600).1

/-- The repeated-selection loop of `percentiles`: each in-range query gets
the sorted-buffer quantile, out-of-range queries get NaN, independently of
the permutation state of the shared buffer. -/
theorem percGo_spec (jm : JsMath) (buf0 : List ℚ) (h0 : 0 < buf0.length)
    (h600 : buf0.length ≤ 600) :
    ∀ (qs : List ℚ) (buf : List ℚ), buf.Perm buf0 →
      percGo jm buf0.length qs buf =
        qs.map (fun q => if q < 0 ∨ 1 < q then none
          else some (quantileOfSorted (sortBuf buf0) q)) := by
  intro qs
  induction qs with
  | nil => intro buf _; rfl
  | cons q qs ih =>
    intro buf hperm
    simp only [percGo, List.map_cons]
    by_cases hq : q < 0 ∨ 1 < q
    · rw [if_pos hq, if_pos hq, ih buf hperm]
    · rw [if_neg hq, if_neg hq]
      push_neg at hq
      have hlen : buf.length = buf0.length := hperm.length_eq
      have hsb : sortBuf buf = sortBuf buf0 :=
        List.eq_of_perm_of_sorted
          ((List.perm_insertionSort _ buf).trans
            (hperm.trans (List.perm_insertionSort _ buf0).symm))
          (List.sorted_insertionSort _ buf) (List.sorted_insertionSort _ buf0)
      have hspec := quantileFromBuf_spec jm buf q hq.1 hq.2 (by omega) (by omega)
      rw [hlen, hsb] at hspec
      rw [hspec.1, ih _ (hspec.2.trans hperm)]

/-- The sort-once loop of `percentiles` agrees with the sorted-buffer
quantile on every in-range query. -/
theorem percSorted_eq (arr : List ℚ) (qs : List ℚ) (h0 : 0 < arr.length) :
    percSorted arr arr.length qs =
      qs.map (fun q => if q < 0 ∨ 1 < q then none
        else some (quantileOfSorted arr q)) := by
  simp only [percSorted, quantileOfSorted]
  refine List.map_congr_left (fun q _ => ?_)
  by_cases hq : q < 0 ∨ 1 < q
  · rw [if_pos hq, if_pos hq]
  · rw [if_neg hq, if_neg hq]
    push_neg at hq
    have hp1 : (1 : ℚ) ≤ (arr.length : ℚ) := by exact_mod_cast h0
    have hidx0 : 0 ≤ ((arr.length : ℚ) - 1) * q := mul_nonneg (by linarith) hq.1
    have hlo0 : 0 ≤ ⌊((arr.length : ℚ) - 1) * q⌋ := Int.floor_nonneg.mpr hidx0
    by_cases hc : ⌊((arr.length : ℚ) - 1) * q⌋ = ⌈((arr.length : ℚ) - 1) * q⌉
    · rw [if_pos hc, if_pos hc]
    · rw [if_neg hc, if_neg hc]
      have hhi1 : ⌈((arr.length : ℚ) - 1) * q⌉ =
          ⌊((arr.length : ℚ) - 1) * q⌋ + 1 := by
        have h1 := Int.floor_le_ceil (((arr.length : ℚ) - 1) * q)
        have h2 := Int.ceil_le_floor_add_one (((arr.length : ℚ) - 1) * q)
        omega
      have htn : (⌈((arr.length : ℚ) - 1) * q⌉).toNat =
          ⌊((arr.length : ℚ) - 1) * q⌋.toNat + 1 := by omega
      rw [htn]

/-- `mapM` over `Except` of a pointwise-`ok` function is `ok` of the map. -/
theorem mapM_ok {α β : Type} (f : α → Except String β) (g : α → β) :
    ∀ l : List α, (∀ a ∈ l, f a = .ok (g a)) → l.mapM f = .ok (l.map g) := by
  intro l
  induction l with
  | nil => intro _; rfl
  | cons a t ih =>
    intro h
    rw [List.mapM_cons, h a (List.mem_cons_self a t),
      ih (fun x hx => h x (List.mem_cons_of_mem a hx))]
    rfl

/-- **C7 (counterexample).** With more than 600 valid samples the two
paths disagree even for all-in-range `qs`: on the 601-sample source
`srcC7`, `percentiles(srcC7, [1,1,...,1])` (11 queries, sort-once path)
returns 1000 everywhere — the true maximum — while
`quantile(srcC7, 1)` returns 600, because the Floyd–Rivest narrowing
defect (C3) makes `_quickselect` miss the maximum sitting at position 0.
So `percentiles(source, qs)` ≠ `qs.map(q => quantile(source, q))`
elementwise. -/
theorem quantile_c7_counterexample :
    percentiles jsMathV8 srcC7 (List.replicate 11 1) =
      .ok (List.replicate 11 (some (1000 : ℚ))) ∧
    quantile jsMathV8 srcC7 1 = .ok (some (600 : ℚ)) :=
  ⟨by with_unfolding_all rfl, by with_unfolding_all rfl⟩

/-- **C7 (amended).** `percentiles(source, qs)` equals
`qs.map(q => quantile(source, q))` elementwise whenever every entry of
`qs` lies in `[0,1]` **and** the source holds at most 600 valid (non-NaN)
samples (so the Floyd–Rivest branch of `_quickselect` — whose narrowing
step is wrong, see C3 — never runs): both sides then compute the
linear-interpolation quantile of the sorted compacted buffer. -/
theorem quantile_c7_amended (jm : JsMath) (source : List JsVal) (qs : List ℚ)
    (hqs : ∀ q ∈ qs, 0 ≤ q ∧ q ≤ 1)
    (h600 : (compactValid source).length ≤ 600) :
    percentiles jm source qs = .ok (qs.map (quantileValue source)) ∧
    qs.mapM (quantile jm source) = .ok (qs.map (quantileValue source)) := by
  have hquant : ∀ q ∈ qs, quantile jm source q = .ok (quantileValue source q) :=
    fun q hq => quantile_eq jm source q (hqs q hq).1 (hqs q hq).2 h600
  refine ⟨?_, mapM_ok (quantile jm source) (quantileValue source) qs hquant⟩
  rcases qs with _ | ⟨q1, _ | ⟨q2, rest⟩⟩
  · rfl
  · simp only [percentiles]
    rw [hquant q1 (List.mem_singleton_self q1)]
    rfl
  · have hvq : ∀ q ∈ q1 :: q2 :: rest, ¬ (q < 0 ∨ 1 < q) := by
      intro q hq
      push_neg
      exact hqs q hq
    simp only [percentiles]
    by_cases hp : (compactValid source).length = 0
    · rw [if_pos hp]
      refine congrArg Except.ok (List.map_congr_left (fun q _ => ?_)).symm
      simp only [quantileValue]
      rw [if_pos hp]
    · rw [if_neg hp]
      have hqv : ∀ q ∈ q1 :: q2 :: rest,
          (if q < 0 ∨ 1 < q then (none : JsVal)
            else some (quantileOfSorted (sortBuf (compactValid source)) q)) =
          quantileValue source q := by
        intro q hq
        rw [if_neg (hvq q hq)]
        simp only [quantileValue]
        rw [if_neg hp]
      by_cases hn : (q1 :: q2 :: rest).length ≤ 10
      · rw [if_pos hn,
          percGo_spec jm (compactValid source) (by omega) h600 _ _
            (List.Perm.refl _)]
        exact congrArg Except.ok (List.map_congr_left hqv)
      · rw [if_neg hn]
        have hslen : (sortBuf (compactValid source)).length =
            (compactValid source).length :=
          (List.perm_insertionSort _ _).length_eq
        rw [← hslen,
          percSorted_eq (sortBuf (compactValid source)) _ (by omega)]
        exact congrArg Except.ok (List.map_congr_left hqv)

/-- Closed witness for the hypotheses of `quantile_c7_amended`: the
three-sample source `[3, 1, 2]` with the two in-range queries `[1/2, 1/4]`,
where both paths return `[2, 3/2]`. -/
theorem quantile_c7_amended_witness :
    (∀ q ∈ [(1 : ℚ)/2, 1/4], 0 ≤ q ∧ q ≤ 1) ∧
    (compactValid [some 3, some 1, some 2]).length ≤ 600 ∧
    (percentiles jsMathV8 [some 3, some 1, some 2] [(1 : ℚ)/2, 1/4] =
        .ok ([(1 : ℚ)/2, 1/4].map (quantileValue [some 3, some 1, some 2])) ∧
      [(1 : ℚ)/2, 1/4].mapM (quantile jsMathV8 [some 3, some 1, some 2]) =
        .ok ([(1 : ℚ)/2, 1/4].map (quantileValue [some 3, some 1, some 2]))) :=
  ⟨by with_unfolding_all decide, by with_unfolding_all decide,
    quantile_c7_amended jsMathV8 [some 3, some 1, some 2] [(1 : ℚ)/2, 1/4]
      (by with_unfolding_all decide) (by with_unfolding_all decide)⟩

end QntJs
